import Mathlib

/-
Shallow embedding of the Minesweeper board engine from `src/game.rs`.

All Rust arithmetic on coordinates, dimensions and cell indices is `u8`
arithmetic; its wrapping (release-mode) semantics is modelled by explicit
`% 256` reductions.  The per-cell Bernoulli mine draw performed by
`GameCell::new` (`thread_rng().gen_bool(1.0 / 4.0)`) is modelled by an
explicit mine assignment `m : Nat → Bool` mapping each cell index to its
mine flag; every concrete layout is a possible outcome of the draws.
The recursive `Game::visit` is embedded with an explicit fuel parameter;
a theorem below shows the fuel chosen by `openCell` is never exhausted,
so the embedding computes the same fixpoint as the Rust recursion.
-/

namespace Minesweeper

/-- `CellState` from `src/game.rs`. -/
inductive CellState where
  | Uncovered
  | Covered
  | Flagged
deriving DecidableEq, Repr

/-- `GameCell` from `src/game.rs`: a cell state plus a fixed mine flag. -/
structure GameCell where
  state : CellState
  mine : Bool
deriving DecidableEq, Repr

/-- `GameCell::default()`: covered, no mine. -/
def GameCell.dflt : GameCell := { state := .Covered, mine := false }

/-- `GameState` from `src/game.rs`. -/
inductive GameState where
  | Won
  | Continue
  | Lost
deriving DecidableEq, Repr

/-- The `Game` struct from `src/game.rs`: height, width, row-major cells,
and the overall game state. -/
structure Game where
  h : Nat
  w : Nat
  cells : List GameCell
  state : GameState
deriving DecidableEq, Repr

namespace Game

/-- The row-major index `(y * self.w + x) as usize`; the multiplication and
addition are `u8` operations, hence the reduction mod 256. -/
def idx (g : Game) (x y : Nat) : Nat := (y * g.w + x) % 256

/-- `Game::cell`: bounds check, then `self.cells.get(idx)`. -/
def cell (g : Game) (x y : Nat) : Option GameCell :=
  if ¬ (x ≥ g.w ∨ y ≥ g.h) then g.cells[g.idx x y]? else none

/-- Direct (unchecked) indexing `self.cells[(y * self.w + x) as usize]`.
The Rust code panics out of bounds; all such accesses in the source happen
at in-bounds indices, where the default is never consulted. -/
def cellAt (g : Game) (x y : Nat) : GameCell :=
  g.cells.getD (g.idx x y) GameCell.dflt

/-- `Game::cell_state`. -/
def cellState (g : Game) (x y : Nat) : Option CellState :=
  (g.cell x y).map (fun c => c.state)

/-- `Game::has_mine`. -/
def hasMine (g : Game) (x y : Nat) : Option Bool :=
  (g.cell x y).map (fun c => c.mine)

/-- `Game::adj`: the clipped 3×3 neighborhood, in the source's push order.
`y.checked_sub(1)` succeeds iff `1 ≤ y`; `x + 1` is a `u8` addition. -/
def adj (g : Game) (x y : Nat) : List (Nat × Nat) :=
  (if 1 ≤ y then
    (if 1 ≤ x then [(x - 1, y - 1)] else []) ++
    [(x, y - 1)] ++
    (if (x + 1) % 256 < g.w then [((x + 1) % 256, y - 1)] else [])
   else []) ++
  (if 1 ≤ x then [(x - 1, y)] else []) ++
  (if (x + 1) % 256 < g.w then [((x + 1) % 256, y)] else []) ++
  (if (y + 1) % 256 < g.h then
    (if 1 ≤ x then [(x - 1, (y + 1) % 256)] else []) ++
    [(x, (y + 1) % 256)] ++
    (if (x + 1) % 256 < g.w then [((x + 1) % 256, (y + 1) % 256)] else [])
   else [])

/-- `Game::adjacent_mines`: `cell(x, y).and_then(|_| Some(count))`. -/
def adjacentMines (g : Game) (x y : Nat) : Option Nat :=
  (g.cell x y).bind (fun _ =>
    some (((g.adj x y).filter (fun p => (g.cellAt p.1 p.2).mine)).length))

/-- `Game::mines`. -/
def mines (g : Game) : Nat :=
  (g.cells.filter (fun c => c.mine)).length

/-- `Game::flagged`. -/
def flagged (g : Game) : Nat :=
  (g.cells.filter (fun c => c.state = CellState.Flagged)).length

/-- In-place update `cell.state = s` of the cell at `(x, y)` (the mine flag
is kept, as in the source, which assigns only the `state` field). -/
def setCellState (g : Game) (x y : Nat) (s : CellState) : Game :=
  { g with cells := g.cells.set (g.idx x y) { g.cellAt x y with state := s } }

/-- The `for (x, y) in to_visit { self.visit(visited, x, y) }` loop:
folds a visit function over a list of coordinates, threading the game and
the visited markers. -/
def visitList (f : Game → List Bool → Nat → Nat → Game × List Bool) :
    List (Nat × Nat) → Game × List Bool → Game × List Bool
  | [], s => s
  | p :: ps, s => visitList f ps (f s.1 s.2 p.1 p.2)

/-- `Game::visit` with explicit fuel.  Mirrors the source: return if the
cell is already visited; otherwise uncover it, mark it visited, and if no
adjacent cell has a mine, recurse into the adjacent cells that are not
currently `Uncovered`.  (The `mines` count computed in the source is used
only for a trace message; the cascade condition is the `find`.) -/
def visitF : Nat → Game → List Bool → Nat → Nat → Game × List Bool
  | 0, g, visited, _, _ => (g, visited)
  | fuel + 1, g, visited, x, y =>
    let i := g.idx x y
    if visited.getD i false then (g, visited)
    else
      let a := g.adj x y
      let g1 := g.setCellState x y CellState.Uncovered
      let v1 := visited.set i true
      if (a.find? (fun p => (g1.cellAt p.1 p.2).mine)).isNone then
        visitList (visitF fuel) (a.filter (fun p => (g1.cellAt p.1 p.2).state ≠ CellState.Uncovered)) (g1, v1)
      else (g1, v1)

/-- The win condition scanned by `Game::open`:
no cell has `state == Covered && !mine`. -/
def noCoveredSafe (l : List GameCell) : Bool :=
  (l.find? (fun c => c.state = CellState.Covered ∧ c.mine = false)).isNone

/-- `Game::open` (`open` is a Lean keyword, hence the name): invalid
coordinates are a no-op; a mine hit sets `Lost` and returns; otherwise a
fresh all-false visited vector is allocated, the flood fill runs from
`(x, y)`, and the win check may set `Won`.  The fuel `cells.length + 1`
strictly exceeds the number of unvisited cells, so it is never exhausted
(proved below). -/
def openCell (g : Game) (x y : Nat) : Game :=
  match g.cell x y with
  | none => g
  | some c =>
    if c.mine then { g with state := GameState.Lost }
    else
      let g1 := (visitF (g.cells.length + 1) g (List.replicate g.cells.length false) x y).1
      if noCoveredSafe g1.cells then { g1 with state := GameState.Won }
      else g1

/-- `Game::flag`: toggles `Covered ↔ Flagged`, rejects `Uncovered` cells
and invalid coordinates.  Returns the updated game and the nullable
result. -/
def flag (g : Game) (x y : Nat) : Game × Option Bool :=
  match g.cell x y with
  | none => (g, none)
  | some c =>
    match c.state with
    | .Covered => (g.setCellState x y CellState.Flagged, some true)
    | .Flagged => (g.setCellState x y CellState.Covered, some false)
    | .Uncovered => (g, none)

/-- `Game::new`: `h`, `w`, `(0..h * w)` cells (a `u8` product, hence mod
256) drawn from the mine assignment `m`, and `Continue`. -/
def new (w h : Nat) (m : Nat → Bool) : Game :=
  { h := h
    w := w
    cells := (List.range ((h * w) % 256)).map (fun i => { state := .Covered, mine := m i })
    state := .Continue }

/-- The data-model invariant of §3 of the spec, specialized to boards the
engine can actually index safely: `u8` dimensions whose product does not
wrap, and exactly `w * h` cells. -/
def Wf (g : Game) : Prop :=
  g.w ≤ 255 ∧ g.h ≤ 255 ∧ g.w * g.h ≤ 255 ∧ g.cells.length = g.w * g.h

/-- Boards reachable by the engine: constructed by `Game::new` (with any
outcome of the mine draws, and dimensions whose `u8` product does not
wrap) and evolved by `open` and `flag` calls. -/
inductive Reachable : Game → Prop where
  | ofNew : ∀ w h m, w ≤ 255 → h ≤ 255 → w * h ≤ 255 → Reachable (Game.new w h m)
  | ofOpen : ∀ g x y, Reachable g → Reachable (g.openCell x y)
  | ofFlag : ∀ g x y, Reachable g → Reachable (g.flag x y).1

/- ## Generic list helpers -/

theorem getD_set_self {α} (l : List α) (i : Nat) (a d : α) (h : i < l.length) :
    (l.set i a).getD i d = a := by
  simp [List.getD, List.getElem?_set_self, h]

theorem getD_set_ne {α} (l : List α) (i j : Nat) (a d : α) (h : i ≠ j) :
    (l.set i a).getD j d = l.getD j d := by
  simp [List.getD, List.getElem?_set_ne h]

theorem set_of_getElem_eq {α} (l : List α) (i : Nat) (a : α) (h : l[i]? = some a) :
    l.set i a = l := by
  induction l generalizing i with
  | nil => simp at h
  | cons b l ih =>
    cases i with
    | zero => simp at h; simp [h]
    | succ i => simp only [List.getElem?_cons_succ] at h; simp [ih i h]

/- ## Basic facts about `cell`, `idx`, `cellAt` -/

theorem idx_lt (g : Game) (hlen : g.cells.length = g.w * g.h)
    (hx : x < g.w) (hy : y < g.h) : g.idx x y < g.cells.length := by
  have h1 : y * g.w + g.w ≤ g.h * g.w := by
    have : (y + 1) * g.w ≤ g.h * g.w := Nat.mul_le_mul_right _ (Nat.succ_le_of_lt hy)
    calc y * g.w + g.w = (y + 1) * g.w := by ring
    _ ≤ g.h * g.w := this
  have hc : g.h * g.w = g.w * g.h := Nat.mul_comm _ _
  have hmod : g.idx x y ≤ y * g.w + x := Nat.mod_le _ _
  have hmod2 : g.idx x y < 256 := Nat.mod_lt _ (by omega)
  unfold Game.idx at *
  by_cases hsmall : y * g.w + x < 256
  · rw [Nat.mod_eq_of_lt hsmall]
    omega
  · omega

theorem idx_eq (g : Game) (h255 : g.w * g.h ≤ 255)
    (hx : x < g.w) (hy : y < g.h) : g.idx x y = y * g.w + x := by
  have h1 : y * g.w + g.w ≤ g.h * g.w := by
    have : (y + 1) * g.w ≤ g.h * g.w := Nat.mul_le_mul_right _ (Nat.succ_le_of_lt hy)
    calc y * g.w + g.w = (y + 1) * g.w := by ring
    _ ≤ g.h * g.w := this
  have hc : g.h * g.w = g.w * g.h := Nat.mul_comm _ _
  exact Nat.mod_eq_of_lt (by omega)

theorem idx_inj (g : Game) (h255 : g.w * g.h ≤ 255)
    (ha : a < g.w) (hb : b < g.h) (hx : x < g.w) (hy : y < g.h)
    (heq : g.idx a b = g.idx x y) : a = x ∧ b = y := by
  rw [idx_eq g h255 ha hb, idx_eq g h255 hx hy] at heq
  have hby : b = y := by
    rcases Nat.lt_trichotomy b y with h | h | h
    · have h2 : b * g.w + g.w ≤ y * g.w := by
        have : (b + 1) * g.w ≤ y * g.w := Nat.mul_le_mul_right _ (Nat.succ_le_of_lt h)
        calc b * g.w + g.w = (b + 1) * g.w := by ring
        _ ≤ y * g.w := this
      omega
    · exact h
    · have h2 : y * g.w + g.w ≤ b * g.w := by
        have : (y + 1) * g.w ≤ b * g.w := Nat.mul_le_mul_right _ (Nat.succ_le_of_lt h)
        calc y * g.w + g.w = (y + 1) * g.w := by ring
        _ ≤ b * g.w := this
      omega
  subst hby
  omega

theorem cell_eq_none_iff (g : Game) (x y : Nat) (hlen : g.cells.length = g.w * g.h) :
    g.cell x y = none ↔ ¬ (x < g.w ∧ y < g.h) := by
  unfold Game.cell
  by_cases hin : x < g.w ∧ y < g.h
  · have hlt := idx_lt g hlen hin.1 hin.2
    rw [if_pos (by omega)]
    simp only [List.getElem?_eq_none_iff]
    constructor
    · intro h; omega
    · intro h; exact absurd hin h
  · rw [if_neg (by omega)]
    simp [hin]

theorem cell_some_elim (g : Game) (x y : Nat) (c : GameCell) (hc : g.cell x y = some c) :
    x < g.w ∧ y < g.h ∧ g.idx x y < g.cells.length ∧ g.cellAt x y = c := by
  unfold Game.cell at hc
  split at hc
  · next hin =>
    have hlt : g.idx x y < g.cells.length := by
      rcases List.getElem?_eq_some_iff.mp hc with ⟨h, _⟩
      exact h
    refine ⟨by omega, by omega, hlt, ?_⟩
    unfold Game.cellAt
    simp [List.getD, hc]
  · exact absurd hc (by simp)

theorem cell_eq_some_cellAt (g : Game) (x y : Nat) (hlen : g.cells.length = g.w * g.h)
    (hx : x < g.w) (hy : y < g.h) : g.cell x y = some (g.cellAt x y) := by
  have hlt := idx_lt g hlen hx hy
  unfold Game.cell Game.cellAt
  rw [if_pos (by omega)]
  rw [List.getElem?_eq_getElem hlt]
  simp [List.getD, List.getElem?_eq_getElem hlt]

/- ## C5: nullable queries return none exactly off the board -/

/-- C5: on a board satisfying the data-model invariant
`cells.length = w * h`, each of `cell_state`, `has_mine`, `adjacent_mines`
returns `none` if and only if the coordinate lies outside
`[0, w) × [0, h)`; on the board every query returns a value. -/
theorem queries_none_iff_out_of_range (g : Game) (x y : Nat)
    (hlen : g.cells.length = g.w * g.h) :
    (g.cellState x y = none ↔ ¬ (x < g.w ∧ y < g.h)) ∧
    (g.hasMine x y = none ↔ ¬ (x < g.w ∧ y < g.h)) ∧
    (g.adjacentMines x y = none ↔ ¬ (x < g.w ∧ y < g.h)) := by
  have hiff := cell_eq_none_iff g x y hlen
  unfold Game.cellState Game.hasMine Game.adjacentMines
  cases hcell : g.cell x y with
  | none => simp_all
  | some c =>
    have : ¬ g.cell x y = none := by simp [hcell]
    simp_all

theorem queries_none_iff_out_of_range_witness :
    (Game.new 5 6 (fun _ => false)).cells.length =
      (Game.new 5 6 (fun _ => false)).w * (Game.new 5 6 (fun _ => false)).h ∧
    ((Game.new 5 6 (fun _ => false)).cellState 5 6 = none ↔ ¬ (5 < 5 ∧ 6 < 6)) :=
  ⟨by decide, ((queries_none_iff_out_of_range (Game.new 5 6 (fun _ => false)) 5 6 (by decide)).1)⟩

/- ## C7: a mine hit sets Lost and freezes the cells -/

/-- C7: opening a valid coordinate holding a mine sets
`overall_state = Lost` and leaves the cell vector — every cell's state and
mine flag — exactly as it was. -/
theorem open_mine_hit (g : Game) (x y : Nat) (c : GameCell)
    (hc : g.cell x y = some c) (hm : c.mine = true) :
    (g.openCell x y).state = GameState.Lost ∧ (g.openCell x y).cells = g.cells ∧
    (g.openCell x y).w = g.w ∧ (g.openCell x y).h = g.h := by
  unfold Game.openCell
  rw [hc]
  simp [hm]

theorem open_mine_hit_witness :
    ((Game.new 1 1 (fun _ => true)).openCell 0 0).state = GameState.Lost ∧
    ((Game.new 1 1 (fun _ => true)).openCell 0 0).cells = (Game.new 1 1 (fun _ => true)).cells ∧
    ((Game.new 1 1 (fun _ => true)).openCell 0 0).w = (Game.new 1 1 (fun _ => true)).w ∧
    ((Game.new 1 1 (fun _ => true)).openCell 0 0).h = (Game.new 1 1 (fun _ => true)).h :=
  open_mine_hit (Game.new 1 1 (fun _ => true)) 0 0 ⟨.Covered, true⟩ (by decide) (by decide)

/- ## `setCellState` frame lemmas -/

theorem setCellState_w (g : Game) (x y : Nat) (s : CellState) :
    (g.setCellState x y s).w = g.w := rfl

theorem setCellState_h (g : Game) (x y : Nat) (s : CellState) :
    (g.setCellState x y s).h = g.h := rfl

theorem setCellState_state (g : Game) (x y : Nat) (s : CellState) :
    (g.setCellState x y s).state = g.state := rfl

theorem setCellState_length (g : Game) (x y : Nat) (s : CellState) :
    (g.setCellState x y s).cells.length = g.cells.length := by
  simp [Game.setCellState]

theorem setCellState_idx (g : Game) (x y a b : Nat) (s : CellState) :
    (g.setCellState x y s).idx a b = g.idx a b := rfl

theorem setCellState_getD_ne (g : Game) (x y : Nat) (s : CellState) (j : Nat) (d : GameCell)
    (h : j ≠ g.idx x y) :
    (g.setCellState x y s).cells.getD j d = g.cells.getD j d :=
  getD_set_ne _ _ _ _ _ (fun he => h he.symm)

theorem cellAt_setCellState_self (g : Game) (x y : Nat) (s : CellState)
    (h : g.idx x y < g.cells.length) :
    (g.setCellState x y s).cellAt x y = { g.cellAt x y with state := s } := by
  unfold Game.cellAt
  rw [setCellState_idx]
  show (g.cells.set (g.idx x y) _).getD _ _ = _
  exact getD_set_self _ _ _ _ h

theorem setCellState_mine (g : Game) (x y : Nat) (s : CellState) (j : Nat) (d : GameCell) :
    ((g.setCellState x y s).cells.getD j d).mine = (g.cells.getD j d).mine := by
  by_cases h : j = g.idx x y
  · subst h
    by_cases hlt : g.idx x y < g.cells.length
    · show ((g.cells.set (g.idx x y) _).getD _ _).mine = _
      rw [getD_set_self _ _ _ _ hlt]
      show (g.cellAt x y).mine = _
      simp [Game.cellAt, List.getD, List.getElem?_eq_getElem hlt]
    · show ((g.cells.set (g.idx x y) _).getD _ _).mine = _
      rw [List.set_eq_of_length_le (by omega)]
  · rw [setCellState_getD_ne _ _ _ _ _ _ h]

/- ## C6: the flag toggle contract -/

/-- C6: `flag(x, y)` returns `some true` and flags the cell when it was
Covered, `some false` and re-covers it when it was Flagged, and `none`
with no mutation at all when the cell is Uncovered or the coordinate is
invalid; in the toggling cases it changes exactly the state of the
targeted cell — its mine flag, every other cell, the dimensions and the
overall state are untouched. -/
theorem flag_toggle (g : Game) (x y : Nat) :
    (g.cell x y = none → g.flag x y = (g, none)) ∧
    (∀ c, g.cell x y = some c →
      (c.state = CellState.Uncovered → g.flag x y = (g, none)) ∧
      (c.state = CellState.Covered →
        (g.flag x y).2 = some true ∧
        ((g.flag x y).1.cellAt x y).state = CellState.Flagged) ∧
      (c.state = CellState.Flagged →
        (g.flag x y).2 = some false ∧
        ((g.flag x y).1.cellAt x y).state = CellState.Covered) ∧
      (((g.flag x y).1.cellAt x y).mine = c.mine ∧
        (g.flag x y).1.w = g.w ∧ (g.flag x y).1.h = g.h ∧
        (g.flag x y).1.state = g.state ∧
        (g.flag x y).1.cells.length = g.cells.length ∧
        ∀ j, j ≠ g.idx x y →
          (g.flag x y).1.cells.getD j GameCell.dflt = g.cells.getD j GameCell.dflt)) := by
  constructor
  · intro hc
    unfold Game.flag
    rw [hc]
  · intro c hc
    obtain ⟨hx, hy, hlt, hat⟩ := cell_some_elim g x y c hc
    obtain ⟨cs, cm⟩ := c
    unfold Game.flag
    rw [hc]
    cases cs with
    | Uncovered =>
      refine ⟨fun _ => rfl, ?_, ?_, by rw [hat], rfl, rfl, rfl, rfl, fun j hj => rfl⟩
      · intro hcon; simp at hcon
      · intro hcon; simp at hcon
    | Covered =>
      refine ⟨?_, fun _ => ⟨rfl, by rw [cellAt_setCellState_self g x y _ hlt]⟩, ?_,
        by rw [cellAt_setCellState_self g x y _ hlt, hat],
        rfl, rfl, rfl, setCellState_length _ _ _ _,
        fun j hj => setCellState_getD_ne _ _ _ _ _ _ hj⟩
      · intro hcon; simp at hcon
      · intro hcon; simp at hcon
    | Flagged =>
      refine ⟨?_, ?_, fun _ => ⟨rfl, by rw [cellAt_setCellState_self g x y _ hlt]⟩,
        by rw [cellAt_setCellState_self g x y _ hlt, hat],
        rfl, rfl, rfl, setCellState_length _ _ _ _,
        fun j hj => setCellState_getD_ne _ _ _ _ _ _ hj⟩
      · intro hcon; simp at hcon
      · intro hcon; simp at hcon

theorem flag_toggle_witness :
    ((Game.new 5 6 (fun _ => false)).cell 0 0 = some ⟨CellState.Covered, false⟩) ∧
    (((Game.new 5 6 (fun _ => false)).flag 0 0).2 = some true ∧
      ((((Game.new 5 6 (fun _ => false)).flag 0 0).1.cellAt 0 0).state = CellState.Flagged)) :=
  ⟨by decide, ((flag_toggle (Game.new 5 6 (fun _ => false)) 0 0).2
      ⟨CellState.Covered, false⟩ (by decide)).2.1 rfl⟩

/- ## Unfolding equations for the flood fill -/

theorem visitList_nil (f : Game → List Bool → Nat → Nat → Game × List Bool)
    (s : Game × List Bool) : visitList f [] s = s := rfl

theorem visitList_cons (f : Game → List Bool → Nat → Nat → Game × List Bool)
    (p : Nat × Nat) (ps : List (Nat × Nat)) (s : Game × List Bool) :
    visitList f (p :: ps) s = visitList f ps (f s.1 s.2 p.1 p.2) := rfl

theorem visitF_zero (g : Game) (v : List Bool) (x y : Nat) :
    visitF 0 g v x y = (g, v) := rfl

theorem visitF_succ (fuel : Nat) (g : Game) (v : List Bool) (x y : Nat) :
    visitF (fuel + 1) g v x y =
      if v.getD (g.idx x y) false then (g, v)
      else
        if ((g.adj x y).find? (fun p =>
            ((g.setCellState x y CellState.Uncovered).cellAt p.1 p.2).mine)).isNone then
          visitList (visitF fuel)
            ((g.adj x y).filter (fun p =>
              ((g.setCellState x y CellState.Uncovered).cellAt p.1 p.2).state ≠ CellState.Uncovered))
            (g.setCellState x y CellState.Uncovered, v.set (g.idx x y) true)
        else (g.setCellState x y CellState.Uncovered, v.set (g.idx x y) true) := rfl

/- ## Counting unvisited markers -/

def countFalse (v : List Bool) : Nat := v.count false

theorem countFalse_set_true (v : List Bool) (i : Nat) :
    countFalse (v.set i true) ≤ countFalse v := by
  induction v generalizing i with
  | nil => simp [countFalse]
  | cons b t ih =>
    cases i with
    | zero =>
      cases b <;> simp [countFalse, List.count_cons] at *
    | succ i =>
      have := ih i
      cases b <;> simp [countFalse, List.count_cons] at * <;> omega

theorem countFalse_set_true_lt (v : List Bool) (i : Nat)
    (hi : i < v.length) (hf : v.getD i false = false) :
    countFalse (v.set i true) < countFalse v := by
  induction v generalizing i with
  | nil => simp at hi
  | cons b t ih =>
    cases i with
    | zero =>
      simp [List.getD] at hf
      subst hf
      simp [countFalse, List.count_cons]
    | succ i =>
      have hi' : i < t.length := by simp at hi; omega
      have hf' : t.getD i false = false := by simpa [List.getD] using hf
      have := ih i hi' hf'
      cases b <;> simp [countFalse, List.count_cons] at * <;> omega

theorem getD_false_of_countFalse_zero (v : List Bool) (i : Nat)
    (h : countFalse v = 0) (hi : i < v.length) : v.getD i false = true := by
  induction v generalizing i with
  | nil => simp at hi
  | cons b t ih =>
    cases b with
    | false => simp [countFalse, List.count_cons] at h
    | true =>
      cases i with
      | zero => simp [List.getD]
      | succ i =>
        have : countFalse t = 0 := by simpa [countFalse, List.count_cons] using h
        have hi' : i < t.length := by simp at hi; omega
        simpa [List.getD] using ih i this hi'

/- ## The frame relation preserved by the flood fill -/

/-- What a flood-fill step never changes or only changes monotonically:
the dimensions, the overall state, the lengths, every mine flag; visited
markers only turn on; cells whose marker stays off are untouched;
`Uncovered` is absorbing; the number of unvisited markers never grows. -/
def Frame (g g' : Game) (v v' : List Bool) : Prop :=
  g'.w = g.w ∧ g'.h = g.h ∧ g'.state = g.state ∧
  g'.cells.length = g.cells.length ∧ v'.length = v.length ∧
  (∀ j d, (g'.cells.getD j d).mine = (g.cells.getD j d).mine) ∧
  (∀ j, v.getD j false = true → v'.getD j false = true) ∧
  (∀ j, v'.getD j false = false → g'.cells.getD j GameCell.dflt = g.cells.getD j GameCell.dflt) ∧
  (∀ j d, (g.cells.getD j d).state = CellState.Uncovered →
    (g'.cells.getD j d).state = CellState.Uncovered) ∧
  countFalse v' ≤ countFalse v

theorem Frame.refl (g : Game) (v : List Bool) : Frame g g v v :=
  ⟨rfl, rfl, rfl, rfl, rfl, fun _ _ => rfl, fun _ h => h, fun _ _ => rfl, fun _ _ h => h,
    Nat.le_refl _⟩

theorem Frame.trans {g g' g'' : Game} {v v' v'' : List Bool}
    (h1 : Frame g g' v v') (h2 : Frame g' g'' v' v'') : Frame g g'' v v'' := by
  obtain ⟨w1, h1h, s1, c1, l1, m1, t1, u1, a1, n1⟩ := h1
  obtain ⟨w2, h2h, s2, c2, l2, m2, t2, u2, a2, n2⟩ := h2
  refine ⟨w2.trans w1, h2h.trans h1h, s2.trans s1, c2.trans c1, l2.trans l1, ?_, ?_, ?_, ?_, ?_⟩
  · intro j d; rw [m2, m1]
  · intro j h; exact t2 j (t1 j h)
  · intro j h
    have hv' : v'.getD j false = false := by
      cases hv : v'.getD j false with
      | false => rfl
      | true =>
        have hcon := t2 j hv
        rw [h] at hcon
        cases hcon
    rw [u2 j h, u1 j hv']
  · intro j d h; exact a2 j d (a1 j d h)
  · exact n2.trans n1

theorem getD_set_true_mono (v : List Bool) (i j : Nat) (h : v.getD j false = true) :
    (v.set i true).getD j false = true := by
  by_cases hij : i = j
  · subst hij
    by_cases hi : i < v.length
    · rw [getD_set_self _ _ _ _ hi]
    · rw [List.set_eq_of_length_le (by omega)]
      exact h
  · rw [getD_set_ne _ _ _ _ _ hij]
    exact h

/-- One uncover-and-mark step satisfies the frame relation. -/
theorem frame_step (g : Game) (v : List Bool) (x y : Nat)
    (hlen : g.cells.length ≤ v.length) :
    Frame g (g.setCellState x y CellState.Uncovered) v (v.set (g.idx x y) true) := by
  refine ⟨rfl, rfl, rfl, setCellState_length _ _ _ _, List.length_set _ _ _,
    fun j d => setCellState_mine _ _ _ _ _ _,
    fun j hj => getD_set_true_mono _ _ _ hj, ?_, ?_, countFalse_set_true _ _⟩
  · intro j hj
    by_cases hij : j = g.idx x y
    · subst hij
      by_cases hi : g.idx x y < v.length
      · rw [getD_set_self _ _ _ _ hi] at hj
        cases hj
      · show (g.cells.set (g.idx x y) _).getD _ _ = _
        rw [List.set_eq_of_length_le (by omega)]
    · exact setCellState_getD_ne _ _ _ _ _ _ hij
  · intro j d hj
    by_cases hij : j = g.idx x y
    · subst hij
      by_cases hi : g.idx x y < g.cells.length
      · show ((g.cells.set (g.idx x y) _).getD _ d).state = _
        rw [getD_set_self _ _ _ _ hi]
      · show ((g.cells.set (g.idx x y) _).getD _ d).state = _
        rw [List.set_eq_of_length_le (by omega)]
        exact hj
    · rw [setCellState_getD_ne _ _ _ _ _ _ hij]
      exact hj

theorem visitList_zero_fuel (l : List (Nat × Nat)) (s : Game × List Bool) :
    visitList (visitF 0) l s = s := by
  induction l with
  | nil => rfl
  | cons p ps ih => rw [visitList_cons, visitF_zero]; exact ih

/-- The flood fill, at any fuel, satisfies the frame relation; so does
every fold of flood-fill calls. -/
theorem visit_frame (fuel : Nat) :
    (∀ g v x y, g.cells.length ≤ v.length →
      Frame g (visitF fuel g v x y).1 v (visitF fuel g v x y).2) ∧
    (∀ l (s : Game × List Bool), s.1.cells.length ≤ s.2.length →
      Frame s.1 (visitList (visitF fuel) l s).1 s.2 (visitList (visitF fuel) l s).2) := by
  induction fuel with
  | zero =>
    constructor
    · intro g v x y _
      rw [visitF_zero]
      exact Frame.refl g v
    · intro l s _
      rw [visitList_zero_fuel]
      exact Frame.refl _ _
  | succ fuel ih =>
    obtain ⟨ihF, ihL⟩ := ih
    have hF : ∀ g v x y, g.cells.length ≤ v.length →
        Frame g (visitF (fuel + 1) g v x y).1 v (visitF (fuel + 1) g v x y).2 := by
      intro g v x y hlen
      rw [visitF_succ]
      by_cases hvis : v.getD (g.idx x y) false = true
      · rw [if_pos hvis]
        exact Frame.refl g v
      · rw [if_neg hvis]
        have hstep := frame_step g v x y hlen
        have hlen1 : (g.setCellState x y CellState.Uncovered).cells.length ≤
            (v.set (g.idx x y) true).length := by
          rw [setCellState_length, List.length_set]
          exact hlen
        by_cases hfind : (((g.adj x y).find? (fun p =>
            ((g.setCellState x y CellState.Uncovered).cellAt p.1 p.2).mine)).isNone : Bool) = true
        · rw [if_pos hfind]
          exact Frame.trans hstep (ihL _ _ hlen1)
        · rw [if_neg hfind]
          exact hstep
    have hL : ∀ l (s : Game × List Bool), s.1.cells.length ≤ s.2.length →
        Frame s.1 (visitList (visitF (fuel + 1)) l s).1 s.2
          (visitList (visitF (fuel + 1)) l s).2 := by
      intro l
      induction l with
      | nil =>
        intro s _
        exact Frame.refl _ _
      | cons p ps ihl =>
        intro s hlen
        rw [visitList_cons]
        have h1 := hF s.1 s.2 p.1 p.2 hlen
        refine Frame.trans h1 (ihl _ ?_)
        obtain ⟨_, _, _, hc1, hv1, _⟩ := h1
        omega
    exact ⟨hF, hL⟩

/- ## Frame facts for `open` and `flag` -/

theorem openCell_invalid (g : Game) (x y : Nat) (hc : g.cell x y = none) :
    g.openCell x y = g := by
  unfold Game.openCell
  rw [hc]

theorem openCell_mine_eq (g : Game) (x y : Nat) (c : GameCell)
    (hc : g.cell x y = some c) (hm : c.mine = true) :
    g.openCell x y = { g with state := GameState.Lost } := by
  obtain ⟨cs, cm⟩ := c
  cases cm
  · cases hm
  · unfold Game.openCell
    rw [hc]
    rfl

theorem openCell_safe_eq (g : Game) (x y : Nat) (c : GameCell)
    (hc : g.cell x y = some c) (hm : c.mine = false) :
    g.openCell x y =
      (if noCoveredSafe (visitF (g.cells.length + 1) g
          (List.replicate g.cells.length false) x y).1.cells then
        { (visitF (g.cells.length + 1) g (List.replicate g.cells.length false) x y).1 with
          state := GameState.Won }
      else (visitF (g.cells.length + 1) g (List.replicate g.cells.length false) x y).1) := by
  obtain ⟨cs, cm⟩ := c
  cases cm
  · unfold Game.openCell
    rw [hc]
    rfl
  · cases hm

theorem open_frame (g : Game) (x y : Nat) :
    (g.openCell x y).w = g.w ∧ (g.openCell x y).h = g.h ∧
    (g.openCell x y).cells.length = g.cells.length ∧
    (∀ j d, ((g.openCell x y).cells.getD j d).mine = (g.cells.getD j d).mine) ∧
    ((g.openCell x y).state = g.state ∨ (g.openCell x y).state = GameState.Lost ∨
      (g.openCell x y).state = GameState.Won) := by
  cases hc : g.cell x y with
  | none =>
    rw [openCell_invalid g x y hc]
    exact ⟨rfl, rfl, rfl, fun _ _ => rfl, Or.inl rfl⟩
  | some c =>
    cases hm : c.mine with
    | true =>
      rw [openCell_mine_eq g x y c hc hm]
      exact ⟨rfl, rfl, rfl, fun _ _ => rfl, Or.inr (Or.inl rfl)⟩
    | false =>
      rw [openCell_safe_eq g x y c hc hm]
      have hfr := (visit_frame (g.cells.length + 1)).1 g
        (List.replicate g.cells.length false) x y (by simp)
      obtain ⟨hw, hh, hs, hcl, _, hmine, _⟩ := hfr
      by_cases hwin : noCoveredSafe (visitF (g.cells.length + 1) g
          (List.replicate g.cells.length false) x y).1.cells = true
      · rw [if_pos hwin]
        exact ⟨hw, hh, hcl, hmine, Or.inr (Or.inr rfl)⟩
      · rw [if_neg hwin]
        exact ⟨hw, hh, hcl, hmine, Or.inl hs⟩

theorem flag_frame (g : Game) (x y : Nat) :
    (g.flag x y).1.w = g.w ∧ (g.flag x y).1.h = g.h ∧
    (g.flag x y).1.cells.length = g.cells.length ∧
    (∀ j d, ((g.flag x y).1.cells.getD j d).mine = (g.cells.getD j d).mine) ∧
    (g.flag x y).1.state = g.state := by
  unfold Game.flag
  cases hc : g.cell x y with
  | none => exact ⟨rfl, rfl, rfl, fun _ _ => rfl, rfl⟩
  | some c =>
    obtain ⟨cs, cm⟩ := c
    cases cs with
    | Uncovered => exact ⟨rfl, rfl, rfl, fun _ _ => rfl, rfl⟩
    | Covered =>
      exact ⟨rfl, rfl, setCellState_length _ _ _ _,
        fun j d => setCellState_mine _ _ _ _ _ _, rfl⟩
    | Flagged =>
      exact ⟨rfl, rfl, setCellState_length _ _ _ _,
        fun j d => setCellState_mine _ _ _ _ _ _, rfl⟩

/- ## C2: how the overall state may move -/

/-- C2 counterexample: `open` does not check the overall state, so Lost is
not terminal.  On a 2×1 board with a mine at (0,0), opening (0,0) sets
Lost, and then opening the safe cell (1,0) passes the win check and sets
Won — a Lost → Won transition. -/
theorem lost_to_won_transition :
    ((Game.new 2 1 (fun i => i == 0)).openCell 0 0).state = GameState.Lost ∧
    (((Game.new 2 1 (fun i => i == 0)).openCell 0 0).openCell 1 0).state = GameState.Won := by
  constructor <;> rfl

/-- C2 amended: `flag` never changes the overall state, and `open` moves
it only to Lost, to Won, or leaves it unchanged (it never resets to
Continue); but Won and Lost are not terminal: since `open` ignores the
current overall state, a later `open` can still move Lost → Won or
Won → Lost. -/
theorem state_transition_shape (g : Game) (x y : Nat) :
    ((g.flag x y).1.state = g.state) ∧
    ((g.openCell x y).state = g.state ∨ (g.openCell x y).state = GameState.Lost ∨
      (g.openCell x y).state = GameState.Won) :=
  ⟨(flag_frame g x y).2.2.2.2, (open_frame g x y).2.2.2.2⟩

/- ## C3: construction and length preservation -/

/-- C3 counterexample: the cell count `h * w` in `Game::new` is a `u8`
product; at 16×16 (both dimensions inside the documented 1..=255 range)
it wraps to 0, so the board has 0 cells, not 256 (a debug build panics on
the overflow instead). -/
theorem new_16_16_wraps :
    (Game.new 16 16 (fun _ => false)).cells.length = 0 ∧
    ¬ ((Game.new 16 16 (fun _ => false)).cells.length = 16 * 16) := by
  constructor
  · rfl
  · decide

/-- C3 amended: for dimensions whose `u8` product does not wrap
(`w * h ≤ 255` — in particular the shipped 5×5, 10×10 and 15×15 boards),
`new` sets `overall_state = Continue` and allocates exactly `w * h`
cells, and every subsequent `open` or `flag` call preserves the length of
the cell vector. -/
theorem new_ok_and_length_preserved (w h : Nat) (m : Nat → Bool) (hwh : w * h ≤ 255) :
    (Game.new w h m).state = GameState.Continue ∧
    (Game.new w h m).cells.length = w * h ∧
    (∀ g : Game, ∀ x y : Nat, (g.openCell x y).cells.length = g.cells.length ∧
      (g.flag x y).1.cells.length = g.cells.length) := by
  refine ⟨rfl, ?_, fun g x y => ⟨(open_frame g x y).2.2.1, (flag_frame g x y).2.2.1⟩⟩
  show ((List.range ((h * w) % 256)).map _).length = w * h
  have hcomm : h * w = w * h := Nat.mul_comm h w
  rw [List.length_map, List.length_range]
  rw [Nat.mod_eq_of_lt (by omega)]
  exact hcomm

theorem new_ok_and_length_preserved_witness :
    5 * 5 ≤ 255 ∧ (Game.new 5 5 (fun _ => false)).state = GameState.Continue ∧
    (Game.new 5 5 (fun _ => false)).cells.length = 5 * 5 :=
  ⟨by decide, (new_ok_and_length_preserved 5 5 (fun _ => false) (by decide)).1,
    (new_ok_and_length_preserved 5 5 (fun _ => false) (by decide)).2.1⟩

/- ## C1: win and loss conditions -/

/-- C1 counterexample: the win scan tests `state == Covered && !mine`, so
a Flagged safe cell does not block winning.  On a 3×1 board with a mine at
(1,0), flagging (2,0) and opening (0,0) yields Won while the non-mine cell
(2,0) is Flagged, not Uncovered. -/
theorem won_with_flagged_safe_cell :
    ((((Game.new 3 1 (fun i => i == 1)).flag 2 0).1.openCell 0 0).state = GameState.Won) ∧
    ((((Game.new 3 1 (fun i => i == 1)).flag 2 0).1.openCell 0 0).cellState 2 0 =
      some CellState.Flagged) ∧
    ((((Game.new 3 1 (fun i => i == 1)).flag 2 0).1.openCell 0 0).hasMine 2 0 = some false) :=
  ⟨rfl, rfl, rfl⟩

/-- C1 amended: Lost is set exactly by opening a valid mine cell (which
changes nothing else); after opening a valid non-mine cell the state
becomes Won exactly when no cell is left with `state == Covered` and
`mine == false` — a Flagged safe cell does not prevent the win — and is
unchanged otherwise; `flag` and invalid `open` calls never change the
overall state. -/
theorem overall_state_characterization (g : Game) (x y : Nat) :
    ((g.flag x y).1.state = g.state) ∧
    (g.cell x y = none → g.openCell x y = g) ∧
    (∀ c, g.cell x y = some c → c.mine = true →
      (g.openCell x y).state = GameState.Lost ∧ (g.openCell x y).cells = g.cells) ∧
    (∀ c, g.cell x y = some c → c.mine = false →
      (g.openCell x y).state =
        (if noCoveredSafe (g.openCell x y).cells then GameState.Won else g.state) ∧
      (g.state ≠ GameState.Won →
        ((g.openCell x y).state = GameState.Won ↔
          noCoveredSafe (g.openCell x y).cells = true))) := by
  refine ⟨(flag_frame g x y).2.2.2.2, openCell_invalid g x y, ?_, ?_⟩
  · intro c hc hm
    rw [openCell_mine_eq g x y c hc hm]
    exact ⟨rfl, rfl⟩
  · intro c hc hm
    rw [openCell_safe_eq g x y c hc hm]
    have hfr := (visit_frame (g.cells.length + 1)).1 g
      (List.replicate g.cells.length false) x y (by simp)
    have hs := hfr.2.2.1
    by_cases hwin : noCoveredSafe (visitF (g.cells.length + 1) g
        (List.replicate g.cells.length false) x y).1.cells = true
    · rw [if_pos hwin]
      constructor
      · show GameState.Won = _
        rw [if_pos]
        exact hwin
      · intro _
        simp [hwin]
    · rw [if_neg hwin]
      constructor
      · rw [if_neg hwin]
        exact hs
      · intro hnw
        constructor
        · intro hcon
          rw [hs] at hcon
          exact absurd hcon hnw
        · intro hcon
          exact absurd hcon hwin

theorem overall_state_characterization_witness :
    ((Game.new 2 1 (fun i => i == 0)).cell 0 0 = some ⟨CellState.Covered, true⟩) ∧
    (((Game.new 2 1 (fun i => i == 0)).openCell 0 0).state = GameState.Lost ∧
      ((Game.new 2 1 (fun i => i == 0)).openCell 0 0).cells =
        (Game.new 2 1 (fun i => i == 0)).cells) :=
  ⟨by decide, (overall_state_characterization (Game.new 2 1 (fun i => i == 0)) 0 0).2.2.1
    ⟨CellState.Covered, true⟩ (by decide) rfl⟩

/- ## C9: the neighbor set -/

theorem adj_mem_iff (g : Game) (x y a b : Nat)
    (hw : g.w ≤ 255) (hh : g.h ≤ 255) (hx : x < g.w) (hy : y < g.h) :
    (a, b) ∈ g.adj x y ↔
      a < g.w ∧ b < g.h ∧ ¬ (a = x ∧ b = y) ∧
      (a + 1 = x ∨ a = x ∨ a = x + 1) ∧ (b + 1 = y ∨ b = y ∨ b = y + 1) := by
  have hx1 : (x + 1) % 256 = x + 1 := Nat.mod_eq_of_lt (by omega)
  have hy1 : (y + 1) % 256 = y + 1 := Nat.mod_eq_of_lt (by omega)
  unfold Game.adj
  rw [hx1, hy1]
  split_ifs <;>
    simp only [List.mem_append, List.mem_singleton, List.mem_cons,
      List.not_mem_nil, or_false, false_or, false_iff, Prod.mk.injEq] <;>
    omega

theorem adj_length_formula (g : Game) (x y : Nat)
    (hw : g.w ≤ 255) (hh : g.h ≤ 255) (hx : x < g.w) (hy : y < g.h) :
    (g.adj x y).length =
      ((if 1 ≤ x then 1 else 0) + 1 + (if x + 1 < g.w then 1 else 0)) *
      ((if 1 ≤ y then 1 else 0) + 1 + (if y + 1 < g.h then 1 else 0)) - 1 := by
  have hx1 : (x + 1) % 256 = x + 1 := Nat.mod_eq_of_lt (by omega)
  have hy1 : (y + 1) % 256 = y + 1 := Nat.mod_eq_of_lt (by omega)
  unfold Game.adj
  rw [hx1, hy1]
  split_ifs <;> (try simp [List.length_append])

/-- C9 counterexample: on a 1×1 board the single cell (0,0) is a corner
cell (x = 0 = w−1, y = 0 = h−1), yet its neighbor list is empty — it has
0 neighbors, not 3. -/
theorem corner_of_1x1_has_no_neighbors :
    ((Game.new 1 1 (fun _ => false)).adj 0 0 = []) ∧
    ¬ (((Game.new 1 1 (fun _ => false)).adj 0 0).length = 3) :=
  ⟨rfl, by decide⟩

/-- C9 amended: for every valid coordinate the neighbor set is exactly the
3×3 block centered at (x, y) minus the center, clipped to the board; on
boards with `w ≥ 2` and `h ≥ 2` a corner cell has exactly 3 neighbors, a
non-corner edge cell exactly 5 and an interior cell exactly 8 (degenerate
one-row or one-column boards yield fewer); and `adjacent_mines` always
lies between 0 and the neighbor count. -/
theorem adj_characterization (g : Game) (x y : Nat)
    (hw : g.w ≤ 255) (hh : g.h ≤ 255) (hx : x < g.w) (hy : y < g.h) :
    (∀ a b, (a, b) ∈ g.adj x y ↔
      a < g.w ∧ b < g.h ∧ ¬ (a = x ∧ b = y) ∧
      (a + 1 = x ∨ a = x ∨ a = x + 1) ∧ (b + 1 = y ∨ b = y ∨ b = y + 1)) ∧
    (2 ≤ g.w → 2 ≤ g.h →
      ((x = 0 ∨ x + 1 = g.w) → (y = 0 ∨ y + 1 = g.h) → (g.adj x y).length = 3) ∧
      ((x = 0 ∨ x + 1 = g.w) → (0 < y ∧ y + 1 < g.h) → (g.adj x y).length = 5) ∧
      ((0 < x ∧ x + 1 < g.w) → (y = 0 ∨ y + 1 = g.h) → (g.adj x y).length = 5) ∧
      ((0 < x ∧ x + 1 < g.w) → (0 < y ∧ y + 1 < g.h) → (g.adj x y).length = 8)) ∧
    (∀ n, g.adjacentMines x y = some n → n ≤ (g.adj x y).length) := by
  refine ⟨fun a b => adj_mem_iff g x y a b hw hh hx hy, ?_, ?_⟩
  · intro hw2 hh2
    rw [adj_length_formula g x y hw hh hx hy] at *
    refine ⟨?_, ?_, ?_, ?_⟩ <;> intro hxe hye <;> split_ifs <;> omega
  · intro n hn
    unfold Game.adjacentMines at hn
    cases hcell : g.cell x y with
    | none => rw [hcell] at hn; cases hn
    | some c =>
      rw [hcell] at hn
      have hn' : some (((g.adj x y).filter
          (fun p => (g.cellAt p.1 p.2).mine)).length) = some n := hn
      injection hn' with hn2
      subst hn2
      exact List.length_filter_le _ _

theorem adj_characterization_witness :
    (((Game.new 5 6 (fun _ => false)).adj 0 0).length = 3) ∧
    (((Game.new 5 6 (fun _ => false)).adj 2 2).length = 8) :=
  ⟨((adj_characterization (Game.new 5 6 (fun _ => false)) 0 0 (by decide) (by decide)
      (by decide) (by decide)).2.1 (by decide) (by decide)).1 (Or.inl rfl) (Or.inl rfl),
    ((adj_characterization (Game.new 5 6 (fun _ => false)) 2 2 (by decide) (by decide)
      (by decide) (by decide)).2.1 (by decide) (by decide)).2.2.2
      (by decide) (by decide)⟩

/- ## C4: mines are never uncovered -/

/-- Every cell holding a mine is not `Uncovered` (off the end of the cell
vector the default cell has no mine, so the condition is vacuous there). -/
def MinesCovered (g : Game) : Prop :=
  ∀ j, (g.cells.getD j GameCell.dflt).mine = true →
    (g.cells.getD j GameCell.dflt).state ≠ CellState.Uncovered

theorem minesCovered_new (w h : Nat) (m : Nat → Bool) : MinesCovered (Game.new w h m) := by
  intro j _
  show (((List.range ((h * w) % 256)).map
      (fun i => ({ state := CellState.Covered, mine := m i } : GameCell))).getD j
    GameCell.dflt).state ≠ CellState.Uncovered
  rcases Nat.lt_or_ge j ((h * w) % 256) with hj | hj
  · rw [List.getD_eq_getElem _ _ (by simpa using hj)]
    simp
  · rw [List.getD_eq_default _ _ (by simpa using hj)]
    intro hcon
    cases hcon

theorem frame_cellAt_mine {g g' : Game} {v v' : List Bool} (hf : Frame g g' v v')
    (a b : Nat) : (g'.cellAt a b).mine = (g.cellAt a b).mine := by
  have hw := hf.1
  have hm := hf.2.2.2.2.2.1
  unfold Game.cellAt Game.idx
  rw [hw, hm]

theorem visit_preserves_minesCovered (fuel : Nat) :
    (∀ g v x y, g.cells.length ≤ v.length → MinesCovered g →
      (g.cellAt x y).mine = false → MinesCovered (visitF fuel g v x y).1) ∧
    (∀ l (s : Game × List Bool), s.1.cells.length ≤ s.2.length → MinesCovered s.1 →
      (∀ p ∈ l, (s.1.cellAt p.1 p.2).mine = false) →
      MinesCovered (visitList (visitF fuel) l s).1) := by
  induction fuel with
  | zero =>
    constructor
    · intro g v x y _ hmc _
      rw [visitF_zero]
      exact hmc
    · intro l s _ hmc _
      rw [visitList_zero_fuel]
      exact hmc
  | succ fuel ih =>
    obtain ⟨ihF, ihL⟩ := ih
    have hF : ∀ g v x y, g.cells.length ≤ v.length → MinesCovered g →
        (g.cellAt x y).mine = false → MinesCovered (visitF (fuel + 1) g v x y).1 := by
      intro g v x y hlen hmc hmine
      rw [visitF_succ]
      by_cases hvis : v.getD (g.idx x y) false = true
      · rw [if_pos hvis]
        exact hmc
      · rw [if_neg hvis]
        have hmc1 : MinesCovered (g.setCellState x y CellState.Uncovered) := by
          intro j hm
          rw [setCellState_mine] at hm
          by_cases hij : j = g.idx x y
          · subst hij
            unfold Game.cellAt at hmine
            rw [hmine] at hm
            cases hm
          · rw [setCellState_getD_ne _ _ _ _ _ _ hij]
            exact hmc j hm
        have hlen1 : (g.setCellState x y CellState.Uncovered).cells.length ≤
            (v.set (g.idx x y) true).length := by
          rw [setCellState_length, List.length_set]
          exact hlen
        by_cases hfind : (((g.adj x y).find? (fun p =>
            ((g.setCellState x y CellState.Uncovered).cellAt p.1 p.2).mine)).isNone : Bool) = true
        · rw [if_pos hfind]
          apply ihL _ _ hlen1 hmc1
          intro p hp
          have hall := List.find?_eq_none.mp (Option.isNone_iff_eq_none.mp hfind)
          have hpa : p ∈ g.adj x y := List.mem_of_mem_filter hp
          simpa using hall p hpa
        · rw [if_neg hfind]
          exact hmc1
    have hL : ∀ l (s : Game × List Bool), s.1.cells.length ≤ s.2.length → MinesCovered s.1 →
        (∀ p ∈ l, (s.1.cellAt p.1 p.2).mine = false) →
        MinesCovered (visitList (visitF (fuel + 1)) l s).1 := by
      intro l
      induction l with
      | nil =>
        intro s _ hmc _
        exact hmc
      | cons p ps ihl =>
        intro s hlen hmc hmines
        rw [visitList_cons]
        have hfr := (visit_frame (fuel + 1)).1 s.1 s.2 p.1 p.2 hlen
        apply ihl
        · have hc1 := hfr.2.2.2.1
          have hv1 := hfr.2.2.2.2.1
          omega
        · exact hF s.1 s.2 p.1 p.2 hlen hmc (hmines p (List.mem_cons_self p ps))
        · intro q hq
          rw [frame_cellAt_mine hfr]
          exact hmines q (List.mem_cons_of_mem p hq)
    exact ⟨hF, hL⟩

theorem flag_preserves_minesCovered (g : Game) (x y : Nat) (hmc : MinesCovered g) :
    MinesCovered (g.flag x y).1 := by
  unfold Game.flag
  cases hc : g.cell x y with
  | none => exact hmc
  | some c =>
    obtain ⟨hx, hy, hlt, hat⟩ := cell_some_elim g x y c hc
    obtain ⟨cs, cm⟩ := c
    cases cs with
    | Uncovered => exact hmc
    | Covered =>
      intro j hm
      by_cases hij : j = g.idx x y
      · subst hij
        show ((g.cells.set _ _).getD _ _).state ≠ _
        rw [getD_set_self _ _ _ _ hlt]
        intro hcon
        cases hcon
      · rw [setCellState_getD_ne _ _ _ _ _ _ hij] at hm ⊢
        exact hmc j hm
    | Flagged =>
      intro j hm
      by_cases hij : j = g.idx x y
      · subst hij
        show ((g.cells.set _ _).getD _ _).state ≠ _
        rw [getD_set_self _ _ _ _ hlt]
        intro hcon
        cases hcon
      · rw [setCellState_getD_ne _ _ _ _ _ _ hij] at hm ⊢
        exact hmc j hm

theorem open_preserves_minesCovered (g : Game) (x y : Nat) (hmc : MinesCovered g) :
    MinesCovered (g.openCell x y) := by
  cases hc : g.cell x y with
  | none =>
    rw [openCell_invalid g x y hc]
    exact hmc
  | some c =>
    cases hm : c.mine with
    | true =>
      rw [openCell_mine_eq g x y c hc hm]
      exact hmc
    | false =>
      rw [openCell_safe_eq g x y c hc hm]
      have hv : MinesCovered (visitF (g.cells.length + 1) g
          (List.replicate g.cells.length false) x y).1 := by
        apply (visit_preserves_minesCovered (g.cells.length + 1)).1 g _ x y (by simp) hmc
        obtain ⟨_, _, _, hat⟩ := cell_some_elim g x y c hc
        rw [hat]
        exact hm
      by_cases hwin : noCoveredSafe (visitF (g.cells.length + 1) g
          (List.replicate g.cells.length false) x y).1.cells = true
      · rw [if_pos hwin]
        exact hv
      · rw [if_neg hwin]
        exact hv

theorem reachable_minesCovered (g : Game) (hr : Reachable g) : MinesCovered g := by
  induction hr with
  | ofNew w h m _ _ _ => exact minesCovered_new w h m
  | ofOpen g x y _ ih => exact open_preserves_minesCovered g x y ih
  | ofFlag g x y _ ih => exact flag_preserves_minesCovered g x y ih

/-- C4: on every board the engine can reach — any mine layout, any
sequence of `open`/`flag` calls — no cell with `mine == true` is ever
`Uncovered`: the cascade recurses only into neighbors of cells with zero
adjacent mines, and a direct mine hit sets Lost without uncovering. -/
theorem mines_never_revealed (g : Game) (hr : Reachable g) :
    (∀ j, (g.cells.getD j GameCell.dflt).mine = true →
      (g.cells.getD j GameCell.dflt).state ≠ CellState.Uncovered) ∧
    (∀ x y, g.hasMine x y = some true → ¬ g.cellState x y = some CellState.Uncovered) := by
  have hmc := reachable_minesCovered g hr
  refine ⟨hmc, ?_⟩
  intro x y hmine hstate
  unfold Game.hasMine at hmine
  unfold Game.cellState at hstate
  cases hc : g.cell x y with
  | none =>
    rw [hc] at hmine
    cases hmine
  | some c =>
    rw [hc] at hmine hstate
    obtain ⟨_, _, hlt, hat⟩ := cell_some_elim g x y c hc
    have hmine' : c.mine = true := by injection hmine
    have hstate' : c.state = CellState.Uncovered := by injection hstate
    have hj := hmc (g.idx x y)
    unfold Game.cellAt at hat
    rw [hat] at hj
    exact hj hmine' hstate'

theorem mines_never_revealed_witness :
    (((Game.new 2 1 (fun i => i == 1)).openCell 0 0).cells.getD 1 GameCell.dflt).state ≠
      CellState.Uncovered :=
  (mines_never_revealed _ (Reachable.ofOpen _ 0 0
    (Reachable.ofNew 2 1 (fun i => i == 1) (by decide) (by decide) (by decide)))).1 1 (by decide)

/- ## C10: the flood fill terminates within one visit per cell -/

theorem adj_mem_bounds (g : Game) (x y : Nat) (hx : x < g.w) (hy : y < g.h) :
    ∀ p ∈ g.adj x y, p.1 < g.w ∧ p.2 < g.h := by
  intro p hp
  obtain ⟨a, b⟩ := p
  unfold Game.adj at hp
  split_ifs at hp <;>
    simp only [List.mem_append, List.mem_singleton, List.mem_cons,
      List.not_mem_nil, or_false, false_or, Prod.mk.injEq] at hp <;>
    omega

theorem wf_of_frame {g g' : Game} {v v' : List Bool} (hf : Frame g g' v v') (hwf : Wf g) :
    Wf g' := by
  obtain ⟨hw, hh, _, hc, _⟩ := hf
  exact ⟨by rw [hw]; exact hwf.1, by rw [hh]; exact hwf.2.1,
    by rw [hw, hh]; exact hwf.2.2.1, by rw [hc, hw, hh]; exact hwf.2.2.2⟩

/-- Any two sufficient fuels compute the same flood fill: the recursion
consumes at most one fuel level per previously unvisited cell. -/
theorem visit_fuel_agrees (n : Nat) :
    (∀ g v x y f1 f2, Wf g → v.length = g.cells.length → x < g.w → y < g.h →
      countFalse v ≤ n → countFalse v < f1 → countFalse v < f2 →
      visitF f1 g v x y = visitF f2 g v x y) ∧
    (∀ l (s : Game × List Bool) f1 f2, Wf s.1 → s.2.length = s.1.cells.length →
      (∀ p ∈ l, p.1 < s.1.w ∧ p.2 < s.1.h) →
      countFalse s.2 ≤ n → countFalse s.2 < f1 → countFalse s.2 < f2 →
      visitList (visitF f1) l s = visitList (visitF f2) l s) := by
  induction n with
  | zero =>
    have hP : ∀ g v x y f1 f2, Wf g → v.length = g.cells.length → x < g.w → y < g.h →
        countFalse v ≤ 0 → countFalse v < f1 → countFalse v < f2 →
        visitF f1 g v x y = visitF f2 g v x y := by
      intro g v x y f1 f2 hwf hv hx hy hn hf1 hf2
      obtain ⟨a, rfl⟩ : ∃ a, f1 = a + 1 := ⟨f1 - 1, by omega⟩
      obtain ⟨b, rfl⟩ : ∃ b, f2 = b + 1 := ⟨f2 - 1, by omega⟩
      have hidx : g.idx x y < v.length := by
        rw [hv]
        exact idx_lt g hwf.2.2.2 hx hy
      have hvis : v.getD (g.idx x y) false = true :=
        getD_false_of_countFalse_zero v _ (by omega) hidx
      rw [visitF_succ, visitF_succ, if_pos hvis, if_pos hvis]
    refine ⟨hP, ?_⟩
    intro l
    induction l with
    | nil => intro s f1 f2 _ _ _ _ _ _; rfl
    | cons p ps ihl =>
      intro s f1 f2 hwf hv hb hn hf1 hf2
      rw [visitList_cons, visitList_cons]
      have hcall := hP s.1 s.2 p.1 p.2 f1 f2 hwf hv (hb p (List.mem_cons_self p ps)).1
        (hb p (List.mem_cons_self p ps)).2 hn hf1 hf2
      rw [hcall]
      have hfr := (visit_frame f2).1 s.1 s.2 p.1 p.2 (by omega)
      apply ihl
      · exact wf_of_frame hfr hwf
      · have h1 := hfr.2.2.2.1
        have h2 := hfr.2.2.2.2.1
        omega
      · intro q hq
        rw [hfr.1, hfr.2.1]
        exact hb q (List.mem_cons_of_mem p hq)
      · have := hfr.2.2.2.2.2.2.2.2.2
        omega
      · have := hfr.2.2.2.2.2.2.2.2.2
        omega
      · have := hfr.2.2.2.2.2.2.2.2.2
        omega
  | succ n ih =>
    obtain ⟨_, ihQ⟩ := ih
    have hP : ∀ g v x y f1 f2, Wf g → v.length = g.cells.length → x < g.w → y < g.h →
        countFalse v ≤ n + 1 → countFalse v < f1 → countFalse v < f2 →
        visitF f1 g v x y = visitF f2 g v x y := by
      intro g v x y f1 f2 hwf hv hx hy hn hf1 hf2
      obtain ⟨a, rfl⟩ : ∃ a, f1 = a + 1 := ⟨f1 - 1, by omega⟩
      obtain ⟨b, rfl⟩ : ∃ b, f2 = b + 1 := ⟨f2 - 1, by omega⟩
      have hidx : g.idx x y < v.length := by
        rw [hv]
        exact idx_lt g hwf.2.2.2 hx hy
      rw [visitF_succ, visitF_succ]
      by_cases hvis : v.getD (g.idx x y) false = true
      · rw [if_pos hvis, if_pos hvis]
      · rw [if_neg hvis, if_neg hvis]
        have hdec : countFalse (v.set (g.idx x y) true) < countFalse v :=
          countFalse_set_true_lt v _ hidx (by
            cases hb : v.getD (g.idx x y) false
            · rfl
            · exact absurd hb hvis)
        by_cases hfind : (((g.adj x y).find? (fun p =>
            ((g.setCellState x y CellState.Uncovered).cellAt p.1 p.2).mine)).isNone : Bool) = true
        · rw [if_pos hfind, if_pos hfind]
          apply ihQ
          · exact ⟨hwf.1, hwf.2.1, hwf.2.2.1, by rw [setCellState_length]; exact hwf.2.2.2⟩
          · rw [List.length_set, setCellState_length]
            exact hv
          · intro q hq
            exact adj_mem_bounds g x y hx hy q (List.mem_of_mem_filter hq)
          · show countFalse (v.set (g.idx x y) true) ≤ n
            omega
          · show countFalse (v.set (g.idx x y) true) < a
            omega
          · show countFalse (v.set (g.idx x y) true) < b
            omega
        · rw [if_neg hfind, if_neg hfind]
    refine ⟨hP, ?_⟩
    intro l
    induction l with
    | nil => intro s f1 f2 _ _ _ _ _ _; rfl
    | cons p ps ihl =>
      intro s f1 f2 hwf hv hb hn hf1 hf2
      rw [visitList_cons, visitList_cons]
      have hcall := hP s.1 s.2 p.1 p.2 f1 f2 hwf hv (hb p (List.mem_cons_self p ps)).1
        (hb p (List.mem_cons_self p ps)).2 hn hf1 hf2
      rw [hcall]
      have hfr := (visit_frame f2).1 s.1 s.2 p.1 p.2 (by omega)
      apply ihl
      · exact wf_of_frame hfr hwf
      · have h1 := hfr.2.2.2.1
        have h2 := hfr.2.2.2.2.1
        omega
      · intro q hq
        rw [hfr.1, hfr.2.1]
        exact hb q (List.mem_cons_of_mem p hq)
      · have := hfr.2.2.2.2.2.2.2.2.2
        omega
      · have := hfr.2.2.2.2.2.2.2.2.2
        omega
      · have := hfr.2.2.2.2.2.2.2.2.2
        omega

/-- C10: the flood fill terminates after at most one visit per cell.  A
call on an already-visited cell returns immediately; a call on an
unvisited (in-range) cell strictly decreases the number of unvisited
markers; consequently the fuel `cells.length + 1` supplied by `open` is
never exhausted — any larger fuel computes the same result — so `open`
is a total function on every finite board. -/
theorem visit_terminates (g : Game) (v : List Bool) (x y : Nat)
    (hwf : Wf g) (hv : v.length = g.cells.length) (hx : x < g.w) (hy : y < g.h) :
    (∀ extra, visitF (g.cells.length + 1) g v x y =
      visitF (g.cells.length + 1 + extra) g v x y) ∧
    (v.getD (g.idx x y) false = true → visitF (g.cells.length + 1) g v x y = (g, v)) ∧
    (v.getD (g.idx x y) false = false →
      countFalse (visitF (g.cells.length + 1) g v x y).2 < countFalse v) := by
  have hcount : countFalse v ≤ g.cells.length := by
    have := List.count_le_length false v
    unfold countFalse
    omega
  have hidx : g.idx x y < v.length := by
    rw [hv]
    exact idx_lt g hwf.2.2.2 hx hy
  refine ⟨?_, ?_, ?_⟩
  · intro extra
    exact (visit_fuel_agrees (countFalse v)).1 g v x y _ _ hwf hv hx hy (Nat.le_refl _)
      (by omega) (by omega)
  · intro hvis
    have heq : g.cells.length + 1 = g.cells.length + 1 := rfl
    show visitF (g.cells.length + 1) g v x y = (g, v)
    rw [visitF_succ, if_pos hvis]
  · intro hvis
    rw [visitF_succ, if_neg (by rw [hvis]; intro hcon; cases hcon)]
    have hdec : countFalse (v.set (g.idx x y) true) < countFalse v :=
      countFalse_set_true_lt v _ hidx hvis
    by_cases hfind : (((g.adj x y).find? (fun p =>
        ((g.setCellState x y CellState.Uncovered).cellAt p.1 p.2).mine)).isNone : Bool) = true
    · rw [if_pos hfind]
      have hfr := (visit_frame (g.cells.length)).2
        ((g.adj x y).filter (fun p =>
          ((g.setCellState x y CellState.Uncovered).cellAt p.1 p.2).state ≠ CellState.Uncovered))
        (g.setCellState x y CellState.Uncovered, v.set (g.idx x y) true)
        (by rw [setCellState_length, List.length_set]; omega)
      have hmono : countFalse (visitList (visitF g.cells.length)
          ((g.adj x y).filter (fun p =>
            ((g.setCellState x y CellState.Uncovered).cellAt p.1 p.2).state ≠
              CellState.Uncovered))
          (g.setCellState x y CellState.Uncovered, v.set (g.idx x y) true)).2 ≤
          countFalse (v.set (g.idx x y) true) := hfr.2.2.2.2.2.2.2.2.2
      omega
    · rw [if_neg hfind]
      exact hdec

theorem visit_terminates_witness :
    countFalse ((visitF ((Game.new 2 1 (fun _ => false)).cells.length + 1)
      (Game.new 2 1 (fun _ => false)) [false, false] 0 0).2) < countFalse [false, false] :=
  (visit_terminates (Game.new 2 1 (fun _ => false)) [false, false] 0 0
    (by constructor <;> decide) (by decide) (by decide) (by decide)).2.2 (by decide)

/- ## C8: re-opening an uncovered cell -/

theorem adj_setCellState (g : Game) (x y : Nat) (s : CellState) (a b : Nat) :
    (g.setCellState x y s).adj a b = g.adj a b := rfl

theorem cellAt_setCellState_mine (g : Game) (x y : Nat) (s : CellState) (a b : Nat) :
    ((g.setCellState x y s).cellAt a b).mine = (g.cellAt a b).mine := by
  unfold Game.cellAt
  exact setCellState_mine g x y s _ _

theorem adj_eq_dims {g g' : Game} (hw : g'.w = g.w) (hh : g'.h = g.h) (a b : Nat) :
    g'.adj a b = g.adj a b := by
  unfold Game.adj
  rw [hw, hh]

theorem frame_cellAt_uncovered {g g' : Game} {v v' : List Bool} (hf : Frame g g' v v')
    (a b : Nat) (h : (g.cellAt a b).state = CellState.Uncovered) :
    (g'.cellAt a b).state = CellState.Uncovered := by
  unfold Game.cellAt Game.idx at *
  rw [hf.1]
  exact hf.2.2.2.2.2.2.2.2.1 _ _ h

theorem replicate_getD_false (n j : Nat) :
    (List.replicate n false).getD j false = false := by
  rcases Nat.lt_or_ge j n with hj | hj
  · rw [List.getD_eq_getElem _ _ (by simpa using hj)]
    simp
  · rw [List.getD_eq_default _ _ (by simpa using hj)]

theorem countFalse_replicate (n : Nat) : countFalse (List.replicate n false) = n := by
  unfold countFalse
  induction n with
  | zero => rfl
  | succ n ih => simp [List.replicate_succ, List.count_cons, ih]

/-- All cells an `open` call has marked visited are `Uncovered`. -/
def SyncInv (g : Game) (v : List Bool) : Prop :=
  ∀ j, v.getD j false = true → (g.cells.getD j GameCell.dflt).state = CellState.Uncovered

theorem syncInv_step (g : Game) (v : List Bool) (x y : Nat)
    (hwf : Wf g) (_hv : v.length = g.cells.length) (hx : x < g.w) (hy : y < g.h)
    (hsync : SyncInv g v) :
    SyncInv (g.setCellState x y CellState.Uncovered) (v.set (g.idx x y) true) := by
  intro j hj
  have hlt : g.idx x y < g.cells.length := idx_lt g hwf.2.2.2 hx hy
  by_cases hij : j = g.idx x y
  · subst hij
    show ((g.cells.set _ _).getD _ _).state = _
    rw [getD_set_self _ _ _ _ hlt]
  · rw [setCellState_getD_ne _ _ _ _ _ _ hij]
    rw [getD_set_ne _ _ _ _ _ (fun he => hij he.symm)] at hj
    exact hsync j hj

theorem visit_preserves_sync (fuel : Nat) :
    (∀ g v x y, Wf g → v.length = g.cells.length → x < g.w → y < g.h → SyncInv g v →
      SyncInv (visitF fuel g v x y).1 (visitF fuel g v x y).2) ∧
    (∀ l (s : Game × List Bool), Wf s.1 → s.2.length = s.1.cells.length →
      (∀ p ∈ l, p.1 < s.1.w ∧ p.2 < s.1.h) → SyncInv s.1 s.2 →
      SyncInv (visitList (visitF fuel) l s).1 (visitList (visitF fuel) l s).2) := by
  induction fuel with
  | zero =>
    constructor
    · intro g v x y _ _ _ _ hsync
      rw [visitF_zero]
      exact hsync
    · intro l s _ _ _ hsync
      rw [visitList_zero_fuel]
      exact hsync
  | succ fuel ih =>
    obtain ⟨ihF, ihL⟩ := ih
    have hF : ∀ g v x y, Wf g → v.length = g.cells.length → x < g.w → y < g.h →
        SyncInv g v → SyncInv (visitF (fuel + 1) g v x y).1 (visitF (fuel + 1) g v x y).2 := by
      intro g v x y hwf hv hx hy hsync
      rw [visitF_succ]
      by_cases hvis : v.getD (g.idx x y) false = true
      · rw [if_pos hvis]
        exact hsync
      · rw [if_neg hvis]
        have hstep := syncInv_step g v x y hwf hv hx hy hsync
        by_cases hfind : (((g.adj x y).find? (fun p =>
            ((g.setCellState x y CellState.Uncovered).cellAt p.1 p.2).mine)).isNone : Bool) = true
        · rw [if_pos hfind]
          apply ihL
          · exact ⟨hwf.1, hwf.2.1, hwf.2.2.1, by rw [setCellState_length]; exact hwf.2.2.2⟩
          · show (v.set (g.idx x y) true).length = _
            rw [List.length_set, setCellState_length]
            exact hv
          · intro q hq
            exact adj_mem_bounds g x y hx hy q (List.mem_of_mem_filter hq)
          · exact hstep
        · rw [if_neg hfind]
          exact hstep
    have hL : ∀ l (s : Game × List Bool), Wf s.1 → s.2.length = s.1.cells.length →
        (∀ p ∈ l, p.1 < s.1.w ∧ p.2 < s.1.h) → SyncInv s.1 s.2 →
        SyncInv (visitList (visitF (fuel + 1)) l s).1 (visitList (visitF (fuel + 1)) l s).2 := by
      intro l
      induction l with
      | nil =>
        intro s _ _ _ hsync
        exact hsync
      | cons p ps ihl =>
        intro s hwf hv hb hsync
        rw [visitList_cons]
        have hfr := (visit_frame (fuel + 1)).1 s.1 s.2 p.1 p.2 (by omega)
        apply ihl
        · exact wf_of_frame hfr hwf
        · have h1 := hfr.2.2.2.1
          have h2 := hfr.2.2.2.2.1
          omega
        · intro q hq
          rw [hfr.1, hfr.2.1]
          exact hb q (List.mem_cons_of_mem p hq)
        · exact hF s.1 s.2 p.1 p.2 hwf hv (hb p (List.mem_cons_self p ps)).1
            (hb p (List.mem_cons_self p ps)).2 hsync
    exact ⟨hF, hL⟩

/-- Each flood-fill call marks its target visited; every cell it newly
marks ends the call `Uncovered`; and a newly marked cell all of whose
neighbors are mine-free ends the call with all its neighbors
`Uncovered`. -/
theorem visit_newly_visited (fuel : Nat) :
    (∀ g v x y, Wf g → v.length = g.cells.length → x < g.w → y < g.h →
      SyncInv g v → countFalse v < fuel →
      ((visitF fuel g v x y).2.getD (g.idx x y) false = true) ∧
      (∀ a b, a < g.w → b < g.h →
        (visitF fuel g v x y).2.getD (g.idx a b) false = true →
        v.getD (g.idx a b) false = false →
        ((visitF fuel g v x y).1.cellAt a b).state = CellState.Uncovered ∧
        ((∀ p ∈ g.adj a b, (g.cellAt p.1 p.2).mine = false) →
          ∀ p ∈ g.adj a b,
            ((visitF fuel g v x y).1.cellAt p.1 p.2).state = CellState.Uncovered))) ∧
    (∀ l (s : Game × List Bool), Wf s.1 → s.2.length = s.1.cells.length →
      (∀ p ∈ l, p.1 < s.1.w ∧ p.2 < s.1.h) → SyncInv s.1 s.2 → countFalse s.2 < fuel →
      (∀ p ∈ l, ((visitList (visitF fuel) l s).1.cellAt p.1 p.2).state =
        CellState.Uncovered) ∧
      (∀ a b, a < s.1.w → b < s.1.h →
        (visitList (visitF fuel) l s).2.getD (s.1.idx a b) false = true →
        s.2.getD (s.1.idx a b) false = false →
        ((visitList (visitF fuel) l s).1.cellAt a b).state = CellState.Uncovered ∧
        ((∀ p ∈ s.1.adj a b, (s.1.cellAt p.1 p.2).mine = false) →
          ∀ p ∈ s.1.adj a b,
            ((visitList (visitF fuel) l s).1.cellAt p.1 p.2).state =
              CellState.Uncovered))) := by
  induction fuel with
  | zero =>
    constructor
    · intro g v x y _ _ _ _ _ hcnt
      exact absurd hcnt (by omega)
    · intro l s _ _ _ _ hcnt
      exact absurd hcnt (by omega)
  | succ fuel ih =>
    obtain ⟨_, ihQ⟩ := ih
    have hF : ∀ g v x y, Wf g → v.length = g.cells.length → x < g.w → y < g.h →
        SyncInv g v → countFalse v < fuel + 1 →
        ((visitF (fuel + 1) g v x y).2.getD (g.idx x y) false = true) ∧
        (∀ a b, a < g.w → b < g.h →
          (visitF (fuel + 1) g v x y).2.getD (g.idx a b) false = true →
          v.getD (g.idx a b) false = false →
          ((visitF (fuel + 1) g v x y).1.cellAt a b).state = CellState.Uncovered ∧
          ((∀ p ∈ g.adj a b, (g.cellAt p.1 p.2).mine = false) →
            ∀ p ∈ g.adj a b,
              ((visitF (fuel + 1) g v x y).1.cellAt p.1 p.2).state =
                CellState.Uncovered)) := by
      intro g v x y hwf hv hx hy hsync hcnt
      have hidxlt : g.idx x y < g.cells.length := idx_lt g hwf.2.2.2 hx hy
      rw [visitF_succ]
      by_cases hvis : v.getD (g.idx x y) false = true
      · rw [if_pos hvis]
        refine ⟨hvis, ?_⟩
        intro a b _ _ hres hstart
        rw [hres] at hstart
        cases hstart
      · rw [if_neg hvis]
        have hvfalse : v.getD (g.idx x y) false = false := by
          cases hb2 : v.getD (g.idx x y) false
          · rfl
          · exact absurd hb2 hvis
        have hwf1 : Wf (g.setCellState x y CellState.Uncovered) :=
          ⟨hwf.1, hwf.2.1, hwf.2.2.1, by rw [setCellState_length]; exact hwf.2.2.2⟩
        have hv1 : (v.set (g.idx x y) true).length =
            (g.setCellState x y CellState.Uncovered).cells.length := by
          rw [List.length_set, setCellState_length]
          exact hv
        have hsync1 := syncInv_step g v x y hwf hv hx hy hsync
        have hcnt1 : countFalse (v.set (g.idx x y) true) < fuel := by
          have := countFalse_set_true_lt v (g.idx x y) (by omega) hvfalse
          omega
        have hv1true : (v.set (g.idx x y) true).getD (g.idx x y) false = true :=
          getD_set_self _ _ _ _ (by omega)
        have hg1unc : ((g.setCellState x y CellState.Uncovered).cellAt x y).state =
            CellState.Uncovered := by
          rw [cellAt_setCellState_self g x y _ hidxlt]
        by_cases hfind : (((g.adj x y).find? (fun p =>
            ((g.setCellState x y CellState.Uncovered).cellAt p.1 p.2).mine)).isNone : Bool) = true
        · rw [if_pos hfind]
          have hbounds : ∀ p ∈ (g.adj x y).filter (fun p =>
              ((g.setCellState x y CellState.Uncovered).cellAt p.1 p.2).state ≠
                CellState.Uncovered),
              p.1 < (g.setCellState x y CellState.Uncovered).w ∧
              p.2 < (g.setCellState x y CellState.Uncovered).h := by
            intro q hq
            exact adj_mem_bounds g x y hx hy q (List.mem_of_mem_filter hq)
          have hQ := ihQ ((g.adj x y).filter (fun p =>
              ((g.setCellState x y CellState.Uncovered).cellAt p.1 p.2).state ≠
                CellState.Uncovered))
            (g.setCellState x y CellState.Uncovered, v.set (g.idx x y) true)
            hwf1 hv1 hbounds hsync1 hcnt1
          have hfr := (visit_frame fuel).2 ((g.adj x y).filter (fun p =>
              ((g.setCellState x y CellState.Uncovered).cellAt p.1 p.2).state ≠
                CellState.Uncovered))
            (g.setCellState x y CellState.Uncovered, v.set (g.idx x y) true)
            (by rw [setCellState_length, List.length_set]; omega)
          constructor
          · exact hfr.2.2.2.2.2.2.1 _ hv1true
          · intro a b ha hb hres hstart
            by_cases hmid : (v.set (g.idx x y) true).getD (g.idx a b) false = true
            · have hab : a = x ∧ b = y := by
                by_cases hij : g.idx a b = g.idx x y
                · exact idx_inj g hwf.2.2.1 ha hb hx hy hij
                · rw [getD_set_ne _ _ _ _ _ (fun he => hij he.symm)] at hmid
                  rw [hstart] at hmid
                  cases hmid
              obtain ⟨rfl, rfl⟩ := hab
              constructor
              · exact frame_cellAt_uncovered hfr a b hg1unc
              · intro hnomine p hp
                by_cases hpunc : ((g.setCellState a b CellState.Uncovered).cellAt p.1 p.2).state =
                    CellState.Uncovered
                · exact frame_cellAt_uncovered hfr p.1 p.2 hpunc
                · have hpin : p ∈ (g.adj a b).filter (fun p =>
                      ((g.setCellState a b CellState.Uncovered).cellAt p.1 p.2).state ≠
                        CellState.Uncovered) :=
                    List.mem_filter.mpr ⟨hp, by simpa using hpunc⟩
                  exact hQ.1 p hpin
            · have hmid' : (v.set (g.idx x y) true).getD (g.idx a b) false = false := by
                cases hb3 : (v.set (g.idx x y) true).getD (g.idx a b) false
                · rfl
                · exact absurd hb3 hmid
              have hq2 := hQ.2 a b ha hb hres hmid'
              refine ⟨hq2.1, ?_⟩
              intro hnomine q hq
              refine hq2.2 ?_ q hq
              intro r hr
              rw [cellAt_setCellState_mine]
              exact hnomine r hr
        · rw [if_neg hfind]
          refine ⟨hv1true, ?_⟩
          intro a b ha hb hres hstart
          have hab : a = x ∧ b = y := by
            by_cases hij : g.idx a b = g.idx x y
            · exact idx_inj g hwf.2.2.1 ha hb hx hy hij
            · rw [getD_set_ne _ _ _ _ _ (fun he => hij he.symm)] at hres
              rw [hstart] at hres
              cases hres
          obtain ⟨rfl, rfl⟩ := hab
          refine ⟨hg1unc, ?_⟩
          intro hnomine
          exfalso
          cases hsome : (g.adj a b).find? (fun p =>
              ((g.setCellState a b CellState.Uncovered).cellAt p.1 p.2).mine) with
          | none =>
            rw [hsome] at hfind
            exact hfind rfl
          | some q =>
            have hqm := List.find?_some hsome
            have hqmem := List.mem_of_find?_eq_some hsome
            rw [cellAt_setCellState_mine] at hqm
            rw [hnomine q hqmem] at hqm
            cases hqm
    have hL : ∀ l (s : Game × List Bool), Wf s.1 → s.2.length = s.1.cells.length →
        (∀ p ∈ l, p.1 < s.1.w ∧ p.2 < s.1.h) → SyncInv s.1 s.2 → countFalse s.2 < fuel + 1 →
        (∀ p ∈ l, ((visitList (visitF (fuel + 1)) l s).1.cellAt p.1 p.2).state =
          CellState.Uncovered) ∧
        (∀ a b, a < s.1.w → b < s.1.h →
          (visitList (visitF (fuel + 1)) l s).2.getD (s.1.idx a b) false = true →
          s.2.getD (s.1.idx a b) false = false →
          ((visitList (visitF (fuel + 1)) l s).1.cellAt a b).state = CellState.Uncovered ∧
          ((∀ p ∈ s.1.adj a b, (s.1.cellAt p.1 p.2).mine = false) →
            ∀ p ∈ s.1.adj a b,
              ((visitList (visitF (fuel + 1)) l s).1.cellAt p.1 p.2).state =
                CellState.Uncovered)) := by
      intro l
      induction l with
      | nil =>
        intro s _ _ _ _ _
        constructor
        · intro p hp
          cases hp
        · intro a b _ _ hres hstart
          have hres' : s.2.getD (s.1.idx a b) false = true := hres
          rw [hstart] at hres'
          cases hres'
      | cons p ps ihl =>
        intro s hwf hv hb hsync hcnt
        rw [visitList_cons]
        have hPhead := hF s.1 s.2 p.1 p.2 hwf hv (hb p (List.mem_cons_self p ps)).1
          (hb p (List.mem_cons_self p ps)).2 hsync hcnt
        have hfrH := (visit_frame (fuel + 1)).1 s.1 s.2 p.1 p.2 (by omega)
        have hwf1 := wf_of_frame hfrH hwf
        have hv1 : (visitF (fuel + 1) s.1 s.2 p.1 p.2).2.length =
            (visitF (fuel + 1) s.1 s.2 p.1 p.2).1.cells.length := by
          have h1 := hfrH.2.2.2.1
          have h2 := hfrH.2.2.2.2.1
          omega
        have hb1 : ∀ q ∈ ps, q.1 < (visitF (fuel + 1) s.1 s.2 p.1 p.2).1.w ∧
            q.2 < (visitF (fuel + 1) s.1 s.2 p.1 p.2).1.h := by
          intro q hq
          rw [hfrH.1, hfrH.2.1]
          exact hb q (List.mem_cons_of_mem p hq)
        have hsync1 := (visit_preserves_sync (fuel + 1)).1 s.1 s.2 p.1 p.2 hwf hv
          (hb p (List.mem_cons_self p ps)).1 (hb p (List.mem_cons_self p ps)).2 hsync
        have hcnt1 : countFalse (visitF (fuel + 1) s.1 s.2 p.1 p.2).2 < fuel + 1 := by
          have := hfrH.2.2.2.2.2.2.2.2.2
          omega
        have hQtail := ihl (visitF (fuel + 1) s.1 s.2 p.1 p.2) hwf1 hv1 hb1 hsync1 hcnt1
        have hfrT := (visit_frame (fuel + 1)).2 ps (visitF (fuel + 1) s.1 s.2 p.1 p.2)
          (by omega)
        have hidx1 : ∀ a b, (visitF (fuel + 1) s.1 s.2 p.1 p.2).1.idx a b = s.1.idx a b := by
          intro a b
          unfold Game.idx
          rw [hfrH.1]
        constructor
        · intro q hq
          rcases List.mem_cons.mp hq with heq | hq'
          · subst heq
            have hunc1 : ((visitF (fuel + 1) s.1 s.2 q.1 q.2).1.cellAt q.1 q.2).state =
                CellState.Uncovered := by
              have hs := hsync1 (s.1.idx q.1 q.2) hPhead.1
              unfold Game.cellAt Game.idx
              rw [hfrH.1]
              exact hs
            exact frame_cellAt_uncovered hfrT q.1 q.2 hunc1
          · exact hQtail.1 q hq'
        · intro a b ha hb2 hres hstart
          by_cases hmid : (visitF (fuel + 1) s.1 s.2 p.1 p.2).2.getD (s.1.idx a b) false = true
          · have hstep := hPhead.2 a b ha hb2 hmid hstart
            refine ⟨frame_cellAt_uncovered hfrT a b hstep.1, ?_⟩
            intro hnomine q hq
            exact frame_cellAt_uncovered hfrT q.1 q.2 (hstep.2 hnomine q hq)
          · have hmid' : (visitF (fuel + 1) s.1 s.2 p.1 p.2).2.getD (s.1.idx a b) false =
                false := by
              cases hb3 : (visitF (fuel + 1) s.1 s.2 p.1 p.2).2.getD (s.1.idx a b) false
              · rfl
              · exact absurd hb3 hmid
            have hadj : (visitF (fuel + 1) s.1 s.2 p.1 p.2).1.adj a b = s.1.adj a b :=
              adj_eq_dims hfrH.1 hfrH.2.1 a b
            have hq2 := hQtail.2 a b (by rw [hfrH.1]; exact ha) (by rw [hfrH.2.1]; exact hb2)
              (by rw [hidx1]; exact hres) (by rw [hidx1]; exact hmid')
            refine ⟨hq2.1, ?_⟩
            intro hnomine q hq
            refine hq2.2 ?_ q (by rwa [hadj])
            intro r hr
            rw [frame_cellAt_mine hfrH]
            exact hnomine r (by rwa [hadj] at hr)
    exact ⟨hF, hL⟩

/-- Every `Uncovered` cell with only mine-free neighbors has all its
neighbors `Uncovered` — what a completed cascade guarantees. -/
def CascadeClosed (g : Game) : Prop :=
  ∀ x y, x < g.w → y < g.h → (g.cellAt x y).state = CellState.Uncovered →
    (∀ p ∈ g.adj x y, (g.cellAt p.1 p.2).mine = false) →
    ∀ p ∈ g.adj x y, (g.cellAt p.1 p.2).state = CellState.Uncovered

theorem new_getD_state (w h : Nat) (m : Nat → Bool) (j : Nat) :
    ((Game.new w h m).cells.getD j GameCell.dflt).state = CellState.Covered := by
  show (((List.range ((h * w) % 256)).map
    (fun i => ({ state := CellState.Covered, mine := m i } : GameCell))).getD j
      GameCell.dflt).state = _
  rcases Nat.lt_or_ge j ((h * w) % 256) with hj | hj
  · rw [List.getD_eq_getElem _ _ (by simpa using hj)]
    simp
  · rw [List.getD_eq_default _ _ (by simpa using hj)]
    rfl

theorem cascadeClosed_new (w h : Nat) (m : Nat → Bool) : CascadeClosed (Game.new w h m) := by
  intro x y _ _ hunc _
  exfalso
  unfold Game.cellAt at hunc
  rw [new_getD_state] at hunc
  cases hunc

theorem setCellState_preserves_cascadeClosed (g : Game) (x y : Nat) (s : CellState)
    (hlt : g.idx x y < g.cells.length)
    (hold : (g.cellAt x y).state ≠ CellState.Uncovered)
    (hnew : s ≠ CellState.Uncovered)
    (hcc : CascadeClosed g) : CascadeClosed (g.setCellState x y s) := by
  have hcell_of_ne : ∀ u t, g.idx u t ≠ g.idx x y →
      (g.setCellState x y s).cellAt u t = g.cellAt u t := by
    intro u t hne
    unfold Game.cellAt
    rw [setCellState_idx]
    exact setCellState_getD_ne _ _ _ _ _ _ hne
  intro a b ha hb hunc hnomine p hp
  by_cases he : g.idx a b = g.idx x y
  · exfalso
    have hval : (g.setCellState x y s).cellAt a b = { g.cellAt x y with state := s } := by
      unfold Game.cellAt
      rw [setCellState_idx, he]
      exact getD_set_self _ _ _ _ hlt
    rw [hval] at hunc
    exact hnew hunc
  · rw [hcell_of_ne a b he] at hunc
    have hnomine' : ∀ q ∈ g.adj a b, (g.cellAt q.1 q.2).mine = false := by
      intro q hq'
      have hqm := hnomine q hq'
      rwa [cellAt_setCellState_mine] at hqm
    have hallunc := hcc a b ha hb hunc hnomine'
    by_cases hpe : g.idx p.1 p.2 = g.idx x y
    · exfalso
      have hpunc := hallunc p hp
      unfold Game.cellAt at hpunc hold
      rw [hpe] at hpunc
      exact hold hpunc
    · rw [hcell_of_ne p.1 p.2 hpe]
      exact hallunc p hp

theorem flag_preserves_cascadeClosed (g : Game) (x y : Nat) (hcc : CascadeClosed g) :
    CascadeClosed (g.flag x y).1 := by
  unfold Game.flag
  cases hc : g.cell x y with
  | none => exact hcc
  | some c =>
    obtain ⟨hx, hy, hlt, hat⟩ := cell_some_elim g x y c hc
    obtain ⟨cs, cm⟩ := c
    cases cs with
    | Uncovered => exact hcc
    | Covered =>
      apply setCellState_preserves_cascadeClosed g x y _ hlt _ (by intro hcon; cases hcon) hcc
      rw [hat]
      intro hcon
      cases hcon
    | Flagged =>
      apply setCellState_preserves_cascadeClosed g x y _ hlt _ (by intro hcon; cases hcon) hcc
      rw [hat]
      intro hcon
      cases hcon

theorem open_preserves_cascadeClosed (g : Game) (x y : Nat) (hwf : Wf g)
    (hcc : CascadeClosed g) : CascadeClosed (g.openCell x y) := by
  cases hc : g.cell x y with
  | none =>
    rw [openCell_invalid g x y hc]
    exact hcc
  | some c =>
    cases hm : c.mine with
    | true =>
      rw [openCell_mine_eq g x y c hc hm]
      exact hcc
    | false =>
      rw [openCell_safe_eq g x y c hc hm]
      obtain ⟨hx, hy, hlt, hat⟩ := cell_some_elim g x y c hc
      have hsync0 : SyncInv g (List.replicate g.cells.length false) := by
        intro j hj
        rw [replicate_getD_false] at hj
        cases hj
      have hcnt0 : countFalse (List.replicate g.cells.length false) < g.cells.length + 1 := by
        rw [countFalse_replicate]
        omega
      have hvlen : (List.replicate g.cells.length false).length = g.cells.length := by simp
      have hP := (visit_newly_visited (g.cells.length + 1)).1 g
        (List.replicate g.cells.length false) x y hwf hvlen hx hy hsync0 hcnt0
      have hfr := (visit_frame (g.cells.length + 1)).1 g
        (List.replicate g.cells.length false) x y (by simp)
      have hres_cc : CascadeClosed (visitF (g.cells.length + 1) g
          (List.replicate g.cells.length false) x y).1 := by
        intro a b ha hb hunc hnomine
        have haw : a < g.w := by rw [← hfr.1]; exact ha
        have hbh : b < g.h := by rw [← hfr.2.1]; exact hb
        have hadj : (visitF (g.cells.length + 1) g
            (List.replicate g.cells.length false) x y).1.adj a b = g.adj a b :=
          adj_eq_dims hfr.1 hfr.2.1 a b
        have hidxe : (visitF (g.cells.length + 1) g
            (List.replicate g.cells.length false) x y).1.idx a b = g.idx a b := by
          unfold Game.idx
          rw [hfr.1]
        have hmine_g : ∀ q ∈ g.adj a b, (g.cellAt q.1 q.2).mine = false := by
          intro q hq
          have hq2 := hnomine q (by rwa [hadj])
          rwa [frame_cellAt_mine hfr] at hq2
        by_cases hgunc : (g.cellAt a b).state = CellState.Uncovered
        · intro p hp
          have hp' : p ∈ g.adj a b := by rwa [hadj] at hp
          exact frame_cellAt_uncovered hfr p.1 p.2 (hcc a b haw hbh hgunc hmine_g p hp')
        · have hchanged : (visitF (g.cells.length + 1) g
              (List.replicate g.cells.length false) x y).2.getD (g.idx a b) false = true := by
            cases hv2 : (visitF (g.cells.length + 1) g
                (List.replicate g.cells.length false) x y).2.getD (g.idx a b) false
            · exfalso
              have huntouched := hfr.2.2.2.2.2.2.2.1 (g.idx a b) hv2
              apply hgunc
              unfold Game.cellAt at hunc ⊢
              rw [hidxe, huntouched] at hunc
              exact hunc
            · rfl
          have hstep := hP.2 a b haw hbh hchanged (replicate_getD_false _ _)
          intro p hp
          exact hstep.2 hmine_g p (by rwa [hadj] at hp)
      by_cases hwin : noCoveredSafe (visitF (g.cells.length + 1) g
          (List.replicate g.cells.length false) x y).1.cells = true
      · rw [if_pos hwin]
        exact hres_cc
      · rw [if_neg hwin]
        exact hres_cc

theorem reachable_wf (g : Game) (hr : Reachable g) : Wf g := by
  induction hr with
  | ofNew w h m hw hh hwh =>
    refine ⟨hw, hh, hwh, ?_⟩
    show ((List.range ((h * w) % 256)).map _).length = w * h
    have hcomm : h * w = w * h := Nat.mul_comm h w
    rw [List.length_map, List.length_range, Nat.mod_eq_of_lt (by omega)]
    exact hcomm
  | ofOpen g x y _ ih =>
    have hfr := open_frame g x y
    exact ⟨by rw [hfr.1]; exact ih.1, by rw [hfr.2.1]; exact ih.2.1,
      by rw [hfr.1, hfr.2.1]; exact ih.2.2.1,
      by rw [hfr.2.2.1, hfr.1, hfr.2.1]; exact ih.2.2.2⟩
  | ofFlag g x y _ ih =>
    have hfr := flag_frame g x y
    exact ⟨by rw [hfr.1]; exact ih.1, by rw [hfr.2.1]; exact ih.2.1,
      by rw [hfr.1, hfr.2.1]; exact ih.2.2.1,
      by rw [hfr.2.2.1, hfr.1, hfr.2.1]; exact ih.2.2.2⟩

theorem reachable_cascadeClosed (g : Game) (hr : Reachable g) : CascadeClosed g := by
  induction hr with
  | ofNew w h m _ _ _ => exact cascadeClosed_new w h m
  | ofOpen g x y hr ih => exact open_preserves_cascadeClosed g x y (reachable_wf g hr) ih
  | ofFlag g x y _ ih => exact flag_preserves_cascadeClosed g x y ih

/-- C8 counterexample: on a reachable, non-terminal 3×1 board with a mine
at (1,0), after `open(0,0)` (state Continue, (0,0) Uncovered) and
`flag(2,0)`, calling `open(0,0)` again re-runs the win check — which now
passes, because the only remaining Covered cell is a mine — and flips
`overall_state` from Continue to Won. -/
theorem reopen_changes_state :
    ((((Game.new 3 1 (fun i => i == 1)).openCell 0 0).flag 2 0).1.state =
      GameState.Continue) ∧
    ((((Game.new 3 1 (fun i => i == 1)).openCell 0 0).flag 2 0).1.cellState 0 0 =
      some CellState.Uncovered) ∧
    (((((Game.new 3 1 (fun i => i == 1)).openCell 0 0).flag 2 0).1.openCell 0 0).state =
      GameState.Won) :=
  ⟨rfl, rfl, rfl⟩

/-- C8 amended: on a reachable board with `overall_state = Continue`,
re-opening a valid already-Uncovered cell changes no cell's state; but it
re-runs the win scan, so `overall_state` becomes Won exactly when the win
condition (no cell Covered with `mine == false`) already holds — which
can newly be the case if cells were flagged since the first open — and
stays Continue otherwise. -/
theorem reopen_uncovered (g : Game) (x y : Nat) (c : GameCell)
    (hr : Reachable g) (hcont : g.state = GameState.Continue)
    (hc : g.cell x y = some c) (hu : c.state = CellState.Uncovered) :
    (g.openCell x y).cells = g.cells ∧
    (g.openCell x y).state =
      (if noCoveredSafe g.cells then GameState.Won else GameState.Continue) := by
  have hwf := reachable_wf g hr
  have hmc := reachable_minesCovered g hr
  have hcc := reachable_cascadeClosed g hr
  obtain ⟨hx, hy, hlt, hat⟩ := cell_some_elim g x y c hc
  have hm : c.mine = false := by
    cases hmb : c.mine
    · rfl
    · exfalso
      have hj := hmc (g.idx x y)
      have hat' := hat
      unfold Game.cellAt at hat'
      rw [hat'] at hj
      exact hj hmb hu
  rw [openCell_safe_eq g x y c hc hm]
  have hget : g.cells[g.idx x y]? = some c := by
    unfold Game.cell at hc
    rw [if_pos (by omega)] at hc
    exact hc
  have hcells1 : (g.setCellState x y CellState.Uncovered).cells = g.cells := by
    show g.cells.set (g.idx x y) _ = g.cells
    have hcval : { g.cellAt x y with state := CellState.Uncovered } = c := by
      rw [hat]
      obtain ⟨cs, cmb⟩ := c
      cases hu
      rfl
    rw [hcval]
    exact set_of_getElem_eq _ _ _ hget
  have hvis0 : (List.replicate g.cells.length false).getD (g.idx x y) false = false :=
    replicate_getD_false _ _
  have hres_cells : (visitF (g.cells.length + 1) g
      (List.replicate g.cells.length false) x y).1.cells = g.cells := by
    rw [visitF_succ, if_neg (by rw [hvis0]; intro hcon; cases hcon)]
    by_cases hfind : (((g.adj x y).find? (fun p =>
        ((g.setCellState x y CellState.Uncovered).cellAt p.1 p.2).mine)).isNone : Bool) = true
    · rw [if_pos hfind]
      have hmine_g : ∀ q ∈ g.adj x y, (g.cellAt q.1 q.2).mine = false := by
        intro q hq
        have hq2 := List.find?_eq_none.mp (Option.isNone_iff_eq_none.mp hfind) q hq
        have hq3 : ((g.setCellState x y CellState.Uncovered).cellAt q.1 q.2).mine = false := by
          cases hb3 : ((g.setCellState x y CellState.Uncovered).cellAt q.1 q.2).mine
          · rfl
          · exact absurd hb3 hq2
        rwa [cellAt_setCellState_mine] at hq3
      have htv : (g.adj x y).filter (fun p =>
          ((g.setCellState x y CellState.Uncovered).cellAt p.1 p.2).state ≠
            CellState.Uncovered) = [] := by
        rw [List.filter_eq_nil_iff]
        intro q hq
        have hqg : (g.cellAt q.1 q.2).state = CellState.Uncovered :=
          hcc x y hx hy (by rw [hat]; exact hu) hmine_g q hq
        have hq1 : ((g.setCellState x y CellState.Uncovered).cellAt q.1 q.2).state =
            CellState.Uncovered := by
          unfold Game.cellAt
          rw [setCellState_idx]
          by_cases hqe : g.idx q.1 q.2 = g.idx x y
          · rw [hqe]
            show ((g.cells.set _ _).getD _ _).state = _
            rw [getD_set_self _ _ _ _ hlt]
          · rw [setCellState_getD_ne _ _ _ _ _ _ hqe]
            unfold Game.cellAt at hqg
            exact hqg
        simp [hq1]
      rw [htv, visitList_nil]
      exact hcells1
    · rw [if_neg hfind]
      exact hcells1
  have hres_state : (visitF (g.cells.length + 1) g
      (List.replicate g.cells.length false) x y).1.state = g.state :=
    ((visit_frame (g.cells.length + 1)).1 g
      (List.replicate g.cells.length false) x y (by simp)).2.2.1
  by_cases hwin : noCoveredSafe (visitF (g.cells.length + 1) g
      (List.replicate g.cells.length false) x y).1.cells = true
  · rw [if_pos hwin]
    rw [hres_cells] at hwin
    exact ⟨hres_cells, by rw [if_pos hwin]⟩
  · rw [if_neg hwin]
    rw [hres_cells] at hwin
    refine ⟨hres_cells, ?_⟩
    rw [if_neg hwin, hres_state]
    exact hcont

theorem reopen_uncovered_witness :
    (((Game.new 3 1 (fun i => i == 1)).openCell 0 0).cell 0 0 =
      some ⟨CellState.Uncovered, false⟩) ∧
    ((((Game.new 3 1 (fun i => i == 1)).openCell 0 0).openCell 0 0).cells =
      ((Game.new 3 1 (fun i => i == 1)).openCell 0 0).cells ∧
    (((Game.new 3 1 (fun i => i == 1)).openCell 0 0).openCell 0 0).state =
      (if noCoveredSafe ((Game.new 3 1 (fun i => i == 1)).openCell 0 0).cells
       then GameState.Won else GameState.Continue)) :=
  ⟨by decide, reopen_uncovered ((Game.new 3 1 (fun i => i == 1)).openCell 0 0) 0 0
    ⟨CellState.Uncovered, false⟩
    (Reachable.ofOpen _ 0 0
      (Reachable.ofNew 3 1 (fun i => i == 1) (by decide) (by decide) (by decide)))
    (by decide) (by decide) rfl⟩

end Game

end Minesweeper
